import Mathlib

/-!
Verification of the bidirectional rich-text converter of this repository:
the encoder `htmlToLexical` (HTML fragment → Lexical document tree) and the
decoder `lexicalToHtml` (Lexical document tree → HTML string).

The encoder consumes the node walk produced by a lenient HTML parser
(an external collaborator of the repository); that walk is embedded here as
the inductive type `HNode` (element nodes with tag name, attributes, outer
markup and children; text nodes with raw text).  The parser itself is not
part of the repository, so a `parseFragment` function is modelled from the
spec for the round-trip statements (see its doc comment).

Lexical nodes are plain JSON objects in the source, with a `type` tag and a
set of optional fields read dynamically by the decoder.  They are embedded
as the inductive type `DNode` holding exactly the fields that either side
of the converter reads or writes.  Constant metadata fields that are
written but never read anywhere (`version`, `direction`, `indent`,
`detail`, `mode`, `style`, `textFormat`, `textStyle`, `start`, `checked`,
`newTab`, `linkType`) are omitted from the embedding.
-/

/-- Generic HTML parse-tree node, as delivered by the lenient HTML parser:
an element carries its (lower-cased) tag name, attribute list, full outer
source markup and child list; a text node carries its raw text. -/
inductive HNode where
  | text (raw : String)
  | elem (tag : String) (attrs : List (String × String)) (outer : String)
      (children : List HNode)


/-- The value found in a Lexical node's `format` field: a number, or
anything else (a string, or the field absent), which the decoder treats
as 0. -/
inductive FormatVal where
  | num (n : Nat)
  | nonNum


/-- Lexical content node: a JSON object with a `type` discriminator and
the optional fields read or written by the converter pair.  In the JSON
the key `value` is a number on list items and an object on upload nodes;
those two shapes are embedded as the separate fields `itemValue` and
`valueUrl`/`valueAlt`. -/
inductive DNode where
  | mk (typ : String)
      (text : Option String)
      (format : FormatVal)
      (tag : Option String)
      (listType : Option String)
      (children : List DNode)
      (fieldsUrl : Option String)
      (fieldsRel : Option String)
      (itemValue : Option Nat)
      (valueUrl : Option String)
      (valueAlt : Option String)
      (html : Option String)


def DNode.typ : DNode → String
  | .mk t _ _ _ _ _ _ _ _ _ _ _ => t

def DNode.children : DNode → List DNode
  | .mk _ _ _ _ _ c _ _ _ _ _ _ => c

def DNode.textVal : DNode → Option String
  | .mk _ t _ _ _ _ _ _ _ _ _ _ => t

def DNode.formatVal : DNode → FormatVal
  | .mk _ _ f _ _ _ _ _ _ _ _ _ => f

def DNode.htmlVal : DNode → Option String
  | .mk _ _ _ _ _ _ _ _ _ _ _ h => h

/-- The root object of a Lexical document: its `children` field may be
absent (the decoder guards against that). -/
structure DRoot where
  children : Option (List DNode)


/-- A Lexical document as the decoder receives it: possibly null or
undefined, possibly lacking a `root`. -/
inductive DDoc where
  | nullish
  | mk (root : Option DRoot)


/-! ### The modelled HTML parsing primitive -/

/-- Whitespace characters recognised by the modelled parser. -/
def isSpaceChar (c : Char) : Bool := c == ' ' || c == '\t' || c == '\n' || c == '\r'

/-- Characters allowed in tag and attribute names by the modelled parser. -/
def isNameChar (c : Char) : Bool := c.isAlpha || c.isDigit || c == '-'

/-- JavaScript toLowerCase, character-wise (all tag names here are ASCII). -/
def toLowerStr (s : String) : String := String.mk (s.data.map Char.toLower)

/-- JavaScript String.prototype.trim, character-wise: strip leading and
trailing whitespace. -/
def trimStr (s : String) : String :=
  String.mk (((s.data.dropWhile fun c => isSpaceChar c).reverse.dropWhile
    fun c => isSpaceChar c).reverse)

/-- Split a character list at the first occurrence of the stop character
(the stop character stays in the second component). -/
def takeUntilChar (stop : Char) : List Char → List Char × List Char
  | [] => ([], [])
  | c :: cs =>
    if c == stop then ([], c :: cs)
    else
      let p := takeUntilChar stop cs
      (c :: p.1, p.2)

/-- Longest prefix of name characters, and the rest. -/
def takeWhileName : List Char → List Char × List Char
  | [] => ([], [])
  | c :: cs =>
    if isNameChar c then
      let p := takeWhileName cs
      (c :: p.1, p.2)
    else ([], c :: cs)

/-- Attribute scanning inside an open tag, up to and including the closing
angle bracket.  Returns the attribute list, the raw characters consumed,
whether the tag was self-closing, and the remaining input. -/
def parseAttrs : List Char → List (String × String) × List Char × Bool × List Char
  | [] => ([], [], false, [])
  | c :: rest =>
    if c == '>' then ([], ['>'], false, rest)
    else if c == '/' then
      match rest with
      | '>' :: r2 => ([], ['/', '>'], true, r2)
      | other =>
        if h : other.length < (c :: rest).length then
          let t := parseAttrs other
          (t.1, c :: t.2.1, t.2.2.1, t.2.2.2)
        else ([], [c], false, other)
    else if isNameChar c then
      let p := takeWhileName (c :: rest)
      match p.2 with
      | '=' :: '"' :: r2 =>
        let q := takeUntilChar '"' r2
        let afterVal := match q.2 with
          | '"' :: r3 => r3
          | other => other
        if h : afterVal.length < (c :: rest).length then
          let t := parseAttrs afterVal
          ((String.mk p.1, String.mk q.1) :: t.1,
            p.1 ++ '=' :: '"' :: (q.1 ++ '"' :: t.2.1), t.2.2.1, t.2.2.2)
        else ([(String.mk p.1, String.mk q.1)], p.1, false, afterVal)
      | other =>
        if h : other.length < (c :: rest).length then
          let t := parseAttrs other
          ((String.mk p.1, "") :: t.1, p.1 ++ t.2.1, t.2.2.1, t.2.2.2)
        else ([(String.mk p.1, "")], p.1, false, other)
    else
      let t := parseAttrs rest
      (t.1, c :: t.2.1, t.2.2.1, t.2.2.2)
termination_by cs => cs.length
decreasing_by
  · simp
  · exact h
  · exact h
  · simp

/-- Consume a closing tag if one starts here; lenient about its name. -/
def consumeCloseTag (cs : List Char) : List Char × List Char :=
  match cs with
  | '<' :: '/' :: rest =>
    let p := takeWhileName rest
    match p.2 with
    | '>' :: r => ('<' :: '/' :: (p.1 ++ ['>']), r)
    | other => ('<' :: '/' :: p.1, other)
  | _ => ([], cs)

/-- Tags that never have children or a closing tag. -/
def voidTags : List String := [r"br", r"hr", r"img", r"meta", r"input", r"link"]

/-- Recursive-descent node scan.  Returns the parsed nodes, the raw
characters consumed, and the remaining input (a closing tag stops the scan
without consuming it; the caller eats it). -/
def parseNodes : List Char → List HNode × List Char × List Char
  | [] => ([], [], [])
  | c :: rest =>
    if c == '<' then
      match rest with
      | [] => ([HNode.text (String.mk ['<'])], ['<'], [])
      | c2 :: r2 =>
        if c2 == '/' then ([], [], c :: rest)
        else if isNameChar c2 then
          let pn := takeWhileName (c2 :: r2)
          let (attrs, rawAttrs, selfClosed, afterGt) := parseAttrs pn.2
          let tag := toLowerStr (String.mk pn.1)
          let openRaw := '<' :: (pn.1 ++ rawAttrs)
          if selfClosed || voidTags.contains tag then
            let node := HNode.elem tag attrs (String.mk openRaw) []
            if h : afterGt.length < (c :: c2 :: r2).length then
              let (ns, con, rem) := parseNodes afterGt
              (node :: ns, openRaw ++ con, rem)
            else ([node], openRaw, afterGt)
          else
            if h : afterGt.length < (c :: c2 :: r2).length then
              let (childNodes, childRaw, afterCh) := parseNodes afterGt
              let (closeRaw, afterClose) := consumeCloseTag afterCh
              let outer := openRaw ++ childRaw ++ closeRaw
              let node := HNode.elem tag attrs (String.mk outer) childNodes
              if h2 : afterClose.length < (c :: c2 :: r2).length then
                let (ns, con, rem) := parseNodes afterClose
                (node :: ns, outer ++ con, rem)
              else ([node], outer, afterClose)
            else ([HNode.elem tag attrs (String.mk openRaw) []], openRaw, afterGt)
        else
          let p := takeUntilChar '<' (c2 :: r2)
          let txt := '<' :: p.1
          if h : p.2.length < (c :: c2 :: r2).length then
            let (ns, con, rem) := parseNodes p.2
            (HNode.text (String.mk txt) :: ns, txt ++ con, rem)
          else ([HNode.text (String.mk txt)], txt, p.2)
    else
      let p := takeUntilChar '<' (c :: rest)
      if h : p.2.length < (c :: rest).length then
        let (ns, con, rem) := parseNodes p.2
        (HNode.text (String.mk p.1) :: ns, p.1 ++ con, rem)
      else ([HNode.text (String.mk p.1)], p.1, p.2)
termination_by cs => cs.length
decreasing_by
  · exact h
  · exact h
  · exact h2
  · exact h
  · exact h

/-- Modelled from the spec: the lenient HTML-parsing primitive is an
external collaborator of the repository (the source imports the
node-html-parser library, configured with lower-cased tag names and
comments disabled), so it is not code under src/.  Per §4.1 step 1 of the
spec it parses the fragment into a generic node walk of element nodes (tag
name, attributes, children) and text nodes carrying raw text; unclosed or
mismatched markup degrades leniently rather than failing, and an element's
full outer markup is recorded verbatim as the characters consumed for it. -/
def parseFragment (html : String) : List HNode :=
  (parseNodes html.data).1

/-! ### Shared Lexical node constructors (encoder source lines 316-433) -/

/-- Bold bit of the format bitmask (source: FORMAT_BOLD = 1). -/
def FORMAT_BOLD : Nat := 1

/-- Italic bit of the format bitmask (source: FORMAT_ITALIC = 2). -/
def FORMAT_ITALIC : Nat := 2

/-- makeTextNode; the source's default format argument 0 is passed
explicitly at the call sites here. -/
def makeTextNode (text : String) (format : Nat) : DNode :=
  .mk (r"text") (some text) (.num format) none none [] none none none none none none

/-- makeLinebreakNode. -/
def makeLinebreakNode : DNode :=
  .mk (r"linebreak") none .nonNum none none [] none none none none none none

/-- makeParagraphNode. -/
def makeParagraphNode (children : List DNode) : DNode :=
  .mk (r"paragraph") none .nonNum none none children none none none none none none

/-- makeHeadingNode. -/
def makeHeadingNode (tag : String) (children : List DNode) : DNode :=
  .mk (r"heading") none .nonNum (some tag) none children none none none none none none

/-- makeListNode. -/
def makeListNode (listType : String) (tag : String) (children : List DNode) : DNode :=
  .mk (r"list") none .nonNum (some tag) (some listType) children none none none none none none

/-- makeListItemNode; the source's default value argument 1 is passed
explicitly at the call sites here. -/
def makeListItemNode (children : List DNode) (value : Nat) : DNode :=
  .mk (r"listitem") none .nonNum none none children none none (some value) none none none

/-- makeLinkNode. -/
def makeLinkNode (url : String) (children : List DNode) (rel : Option String) : DNode :=
  .mk (r"link") none .nonNum none none children (some url) rel none none none none

/-- makeTableNode. -/
def makeTableNode (html : String) : DNode :=
  .mk (r"table") none .nonNum none none [] none none none none none (some html)

/-- makeQuoteNode. -/
def makeQuoteNode (children : List DNode) : DNode :=
  .mk (r"quote") none .nonNum none none children none none none none none none

/-! ### Encoder (HTML → Lexical), source lines 435-654 -/

/-- JavaScript `x || ''` applied to an optional string. -/
def orEmpty : Option String → String
  | some s => s
  | none => ""

/-- Attribute lookup, as getAttribute on the parse tree. -/
def getAttr (attrs : List (String × String)) (name : String) : Option String :=
  match attrs.find? (fun p => p.1 == name) with
  | some p => some p.2
  | none => none

/-- Loop body of convertInlineChildren over a child list (source lines
444-484): a nonempty text node keeps the inherited bitmask; strong/b and
em/i recurse with their format bit OR'd in; a link recurses at the same
bitmask, reads href and an optional rel, and is emitted only when the
recursion produced at least one child; br becomes a linebreak node; any
other element is transparent, its children recursed at the same bitmask. -/
def convertInlineList : List HNode → Nat → List DNode
  | [], _ => []
  | HNode.text raw :: rest, inheritFormat =>
    (if raw == "" then [] else [makeTextNode raw inheritFormat])
      ++ convertInlineList rest inheritFormat
  | HNode.elem tag attrs _ children :: rest, inheritFormat =>
    let t := toLowerStr tag
    (if t == "strong" || t == "b" then
      convertInlineList children (inheritFormat ||| FORMAT_BOLD)
    else if t == "em" || t == "i" then
      convertInlineList children (inheritFormat ||| FORMAT_ITALIC)
    else if t == "a" then
      let href := orEmpty (getAttr attrs (r"href"))
      let rel := match getAttr attrs (r"rel") with
        | some s => if s == "" then none else some s
        | none => none
      let linkChildren := convertInlineList children inheritFormat
      if linkChildren.length > 0 then [makeLinkNode href linkChildren rel] else []
    else if t == "br" then [makeLinebreakNode]
    else convertInlineList children inheritFormat)
      ++ convertInlineList rest inheritFormat

/-- convertInlineChildren (source lines 439-487): dispatch the loop above
over the node's children (a text node has no element children and yields
the empty list, matching the childNodes guard in the source). -/
def convertInlineChildren (node : HNode) (inheritFormat : Nat) : List DNode :=
  match node with
  | .text _ => []
  | .elem _ _ _ children => convertInlineList children inheritFormat

/-- Tags treated as block-level inside convertChildBlocks (source line 613). -/
def blockTags : List String :=
  [r"h1", r"h2", r"h3", r"h4", r"h5", r"h6", r"p", r"ul", r"ol", r"blockquote",
   r"div", r"section", r"article", r"main", r"header", r"footer", r"table",
   r"figure", r"pre"]

mutual

/-- convertBlockElement (source lines 492-581): headings, paragraphs and
blockquotes wrap their inline conversion (padded with one empty text node
when empty); ul/ol converts its li children, falling back to one empty
list item; table captures the element's outer markup verbatim; a
block-level br is dropped; anything else recurses into child blocks. -/
def convertBlockElement : HNode → List DNode
  | .text _ => []
  | .elem tag attrs outer children =>
    let t := toLowerStr tag
    if t == "h1" || t == "h2" || t == "h3" || t == "h4" || t == "h5" || t == "h6" then
      let cs := convertInlineList children 0
      [makeHeadingNode t (if cs.isEmpty then [makeTextNode (r"") 0] else cs)]
    else if t == "p" then
      let cs := convertInlineList children 0
      [makeParagraphNode (if cs.isEmpty then [makeTextNode (r"") 0] else cs)]
    else if t == "ul" || t == "ol" then
      let listType := if t == "ol" then r"number" else r"bullet"
      let items := convertListItems children 1
      [makeListNode listType t
        (if items.isEmpty then [makeListItemNode [makeTextNode (r"") 0] 1] else items)]
    else if t == "blockquote" then
      let cs := convertInlineList children 0
      [makeQuoteNode (if cs.isEmpty then [makeTextNode (r"") 0] else cs)]
    else if t == "table" then
      [makeTableNode outer]
    else if t == "br" then
      []
    else
      convertChildBlocksGo children []

/-- Loop over a ul/ol's direct children (source lines 520-553): only li
elements contribute; each li's children are partitioned, the list item is
emitted followed by its nested lists as siblings, and the per-item value
counter advances per li. -/
def convertListItems : List HNode → Nat → List DNode
  | [], _ => []
  | HNode.text _ :: rest, itemIndex => convertListItems rest itemIndex
  | HNode.elem tag attrs outer children :: rest, itemIndex =>
    if toLowerStr tag == "li" then
      let p := liPartition children
      let inlineContent := if p.2.isEmpty then [makeTextNode (r"") 0] else p.2
      (makeListItemNode inlineContent itemIndex :: p.1)
        ++ convertListItems rest (itemIndex + 1)
    else
      convertListItems rest itemIndex

/-- Inner loop over an li's children (source lines 528-541), returning
(nested lists, inline content): a nested ul/ol is block-converted; every
other element is inline-converted starting from bitmask 0 (the element's
own tag is not dispatched); nonempty text becomes a plain text node. -/
def liPartition : List HNode → List DNode × List DNode
  | [] => ([], [])
  | HNode.text raw :: rest =>
    let p := liPartition rest
    (p.1, (if raw == "" then [] else [makeTextNode raw 0]) ++ p.2)
  | HNode.elem tag attrs outer children :: rest =>
    let p := liPartition rest
    let t := toLowerStr tag
    if t == "ul" || t == "ol" then
      (convertBlockElement (HNode.elem tag attrs outer children) ++ p.1, p.2)
    else
      (p.1, convertInlineChildren (HNode.elem tag attrs outer children) 0 ++ p.2)

/-- convertChildBlocks (source lines 587-626) as a fold over the container's
children, threading the pending-inline accumulator: a recognised block tag
flushes the accumulator into an implicit paragraph and converts itself;
trimmed nonempty text and inline elements accumulate; the tail of the
accumulator is flushed at the end. -/
def convertChildBlocksGo : List HNode → List DNode → List DNode
  | [], pending => if pending.isEmpty then [] else [makeParagraphNode pending]
  | HNode.text raw :: rest, pending =>
    let t := trimStr raw
    if t == "" then convertChildBlocksGo rest pending
    else convertChildBlocksGo rest (pending ++ [makeTextNode t 0])
  | HNode.elem tag attrs outer children :: rest, pending =>
    let t := toLowerStr tag
    if blockTags.contains t then
      (if pending.isEmpty then [] else [makeParagraphNode pending])
        ++ convertBlockElement (HNode.elem tag attrs outer children)
        ++ convertChildBlocksGo rest []
    else
      convertChildBlocksGo rest
        (pending ++ convertInlineChildren (HNode.elem tag attrs outer children) 0)

end

/-- convertChildBlocks over a child list, with an empty initial accumulator. -/
def convertChildBlocksList (cs : List HNode) : List DNode :=
  convertChildBlocksGo cs []

/-- htmlToLexical (source lines 631-654): parse the fragment, block-convert
the root's children, and guarantee at least one child (an empty paragraph). -/
def htmlToLexical (html : String) : DDoc :=
  let children := convertChildBlocksList (parseFragment html)
  DDoc.mk (some (DRoot.mk (some
    (if children.isEmpty then [makeParagraphNode [makeTextNode (r"") 0]] else children))))

/-! ### Decoder (Lexical → HTML), decoder source lines 214-331 -/

/-- escapeHtml (decoder source lines 242-248): the four global replaces
`& → &amp;`, `< → &lt;`, `> → &gt;`, `" → &quot;`, applied in that order.
Because the ampersand pass comes first and no replacement string contains
any later pattern, the sequential global replaces coincide with this
character-wise map, which is the form embedded here. -/
def escapeChar (c : Char) : String :=
  if c == '&' then r"&amp;"
  else if c == '<' then r"&lt;"
  else if c == '>' then r"&gt;"
  else if c == '"' then r"&quot;"
  else String.singleton c

/-- escapeHtml applied to a whole string. -/
def escapeHtml (text : String) : String :=
  String.join (text.data.map escapeChar)

mutual

/-- renderInlineNode (decoder source lines 250-275): a text node is escaped
then wrapped by strong when the bold bit is set and by em on top when the
italic bit is set; a linebreak renders as br; a link renders as an anchor
with its escaped url around its rendered children; anything else renders
its children (an absent child list renders empty exactly like an empty
one, so the embedding's defaulted empty list is faithful). -/
def renderInlineNode : DNode → String
  | .mk typ text format _ _ children fieldsUrl _ _ _ _ _ =>
    if typ == "text" then
      let h0 := escapeHtml (orEmpty text)
      let f := match format with
        | .num n => n
        | .nonNum => 0
      let h1 := if (f &&& FORMAT_BOLD) != 0 then r"<strong>" ++ h0 ++ r"</strong>" else h0
      if (f &&& FORMAT_ITALIC) != 0 then r"<em>" ++ h1 ++ r"</em>" else h1
    else if typ == "linebreak" then r"<br>"
    else if typ == "link" then
      let url := orEmpty fieldsUrl
      r"<a href=" ++ (String.singleton '"') ++ escapeHtml url ++ (String.singleton '"') ++ r">"
        ++ renderInlineList children ++ r"</a>"
    else
      renderInlineList children

/-- join('') over renderInlineNode. -/
def renderInlineList : List DNode → String
  | [] => ""
  | n :: ns => renderInlineNode n ++ renderInlineList ns

end

mutual

/-- renderBlockNode (decoder source lines 277-326): heading, paragraph,
list, listitem, quote and table render to their minimal markup; an upload
node renders an img tag only when its stored url is nonempty; an unknown
block type renders the concatenation of its children's block renderings. -/
def renderBlockNode : DNode → String
  | .mk typ _ _ tag listType children _ _ _ valueUrl valueAlt html =>
    if typ == "heading" then
      let tg := match tag with
        | some t => if t == "" then r"h2" else t
        | none => r"h2"
      r"<" ++ tg ++ r">" ++ renderInlineList children ++ r"</" ++ tg ++ r">"
    else if typ == "paragraph" then
      r"<p>" ++ renderInlineList children ++ r"</p>"
    else if typ == "list" then
      let tg := if listType == some (r"number") then r"ol" else r"ul"
      r"<" ++ tg ++ r">" ++ renderBlockList children ++ r"</" ++ tg ++ r">"
    else if typ == "listitem" then
      r"<li>" ++ renderInlineList children ++ r"</li>"
    else if typ == "quote" then
      r"<blockquote>" ++ renderInlineList children ++ r"</blockquote>"
    else if typ == "table" then
      orEmpty html
    else if typ == "upload" then
      let url := orEmpty valueUrl
      if url == "" then ""
      else r"<img src=" ++ (String.singleton '"') ++ escapeHtml url ++ (String.singleton '"')
        ++ r" alt=" ++ (String.singleton '"') ++ escapeHtml (orEmpty valueAlt) ++ (String.singleton '"') ++ r">"
    else
      renderBlockList children

/-- join('') over renderBlockNode. -/
def renderBlockList : List DNode → String
  | [] => ""
  | n :: ns => renderBlockNode n ++ renderBlockList ns

end

/-- lexicalToHtml (decoder source lines 328-331): a nullish document, a
missing root or missing children yield the empty string; otherwise the
top-level blocks are rendered and joined with a newline. -/
def lexicalToHtml : DDoc → String
  | .nullish => ""
  | .mk none => ""
  | .mk (some root) =>
    match root.children with
    | none => ""
    | some cs => String.intercalate (String.singleton '\n') (cs.map renderBlockNode)

/-! ### Observation functions over the tree -/

/-- The top-level block list of an encoded document (empty for the guarded
degenerate documents). -/
def docChildren : DDoc → List DNode
  | .nullish => []
  | .mk none => []
  | .mk (some root) =>
    match root.children with
    | none => []
    | some cs => cs

/-- Inline node kinds of the data model. -/
def isInlineType (n : DNode) : Bool :=
  n.typ == "text" || n.typ == "linebreak" || n.typ == "link"

mutual

/-- Every text run of a tree, depth-first, as (content, format bitmask). -/
def textRuns : DNode → List (String × Nat)
  | .mk typ text format _ _ children _ _ _ _ _ _ =>
    (if typ == "text" then
      [(orEmpty text, match format with | .num n => n | .nonNum => 0)]
    else []) ++ textRunsList children

/-- textRuns over a node list. -/
def textRunsList : List DNode → List (String × Nat)
  | [] => []
  | n :: ns => textRuns n ++ textRunsList ns

end

/-- Text runs of a whole document. -/
def docTextRuns (d : DDoc) : List (String × Nat) :=
  textRunsList (docChildren d)

mutual

/-- Number of link nodes in a tree. -/
def linkCount : DNode → Nat
  | .mk typ _ _ _ _ children _ _ _ _ _ _ =>
    (if typ == "link" then 1 else 0) + linkCountList children

/-- linkCount over a node list. -/
def linkCountList : List DNode → Nat
  | [] => 0
  | n :: ns => linkCount n + linkCountList ns

end

/-- Link nodes of a whole document. -/
def docLinkCount (d : DDoc) : Nat :=
  linkCountList (docChildren d)

def DNode.valueUrlVal : DNode → Option String
  | .mk _ _ _ _ _ _ _ _ _ vu _ _ => vu

/-- Block-node types the decoder dispatches on. -/
def knownBlockTypes : List String :=
  [r"heading", r"paragraph", r"list", r"listitem", r"quote", r"table", r"upload"]

mutual

/-- The structural invariant of claim C7 on one node: paragraph, heading,
quote and listitem nodes have a nonempty, all-inline child list; list
nodes have at least one listitem child; the invariant holds recursively. -/
def invNode : DNode → Bool
  | .mk typ _ _ _ _ children _ _ _ _ _ _ =>
    (if typ == "paragraph" || typ == "heading" || typ == "quote" || typ == "listitem" then
      !children.isEmpty && children.all isInlineType
    else if typ == "list" then
      children.any (fun n => n.typ == "listitem")
    else true)
    && invList children

/-- invNode over a node list. -/
def invList : List DNode → Bool
  | [] => true
  | n :: ns => invNode n && invList ns

end

/-- A node that is inline-typed and internally satisfies the invariant. -/
def inlineOk (n : DNode) : Bool := isInlineType n && invNode n

/-! ### Semantic view of a fragment (spec-side)

The round-trip properties of the spec compare HTML "semantically": same
text content and same nesting of the supported tags, with whitespace not
compared byte-for-byte.  The following definitions formalise that reading
of the spec: text content is entity-decoded and whitespace-normalised,
`b`/`i` are identified with `strong`/`em`, the supported tags keep their
nesting structure, and any other tag is transparent. -/

/-- A character that HTML escaping leaves unchanged. -/
def safeChar (c : Char) : Bool := !(c == '&' || c == '<' || c == '>' || c == '"')

/-- A string free of markup-reserved characters. -/
def safeStr (s : String) : Bool := s.data.all safeChar

/-- Entity decoding for the entities the decoder produces. -/
def unescapeChars : List Char → List Char
  | '&' :: 'a' :: 'm' :: 'p' :: ';' :: rest => '&' :: unescapeChars rest
  | '&' :: 'l' :: 't' :: ';' :: rest => '<' :: unescapeChars rest
  | '&' :: 'g' :: 't' :: ';' :: rest => '>' :: unescapeChars rest
  | '&' :: 'q' :: 'u' :: 'o' :: 't' :: ';' :: rest => '"' :: unescapeChars rest
  | c :: rest => c :: unescapeChars rest
  | [] => []

/-- Collapse whitespace runs to a single space (flag: previous character
was whitespace). -/
def collapseWsGo : Bool → List Char → List Char
  | _, [] => []
  | prevSpace, c :: rest =>
    if isSpaceChar c then
      (if prevSpace then [] else [' ']) ++ collapseWsGo true rest
    else c :: collapseWsGo false rest

/-- Strip leading and trailing whitespace from a character list. -/
def trimList (l : List Char) : List Char :=
  ((l.dropWhile fun c => isSpaceChar c).reverse.dropWhile fun c => isSpaceChar c).reverse

/-- Semantic text content: entity-decoded, whitespace-collapsed, trimmed. -/
def normText (s : String) : String :=
  String.mk (trimList (collapseWsGo false (unescapeChars s.data)))

/-- The tags whose nesting the spec's round-trip sentence promises to
preserve. -/
def semTags : List String :=
  ["h1", "h2", "h3", "h4", "h5", "h6", "p", "ul", "ol", "li", "blockquote",
   "strong", "em", "a", "br"]

mutual

/-- Canonical semantic rendering of a parse-tree node: supported tags keep
their (normalised) name around their children's view, tables are opaque
leaves, unknown tags are transparent, text contributes its semantic
content. -/
def semView : HNode → String
  | .text raw => normText raw
  | .elem tag _ outer children =>
    let t0 := toLowerStr tag
    let t := if t0 == "b" then "strong" else if t0 == "i" then "em" else t0
    if t == "table" then "table[" ++ outer ++ "]"
    else if semTags.contains t then t ++ "(" ++ semViewList children ++ ")"
    else semViewList children

/-- semView over a forest. -/
def semViewList : List HNode → String
  | [] => ""
  | n :: ns => semView n ++ semViewList ns

end

/-- Semantic view of an HTML fragment string. -/
def semViewFragment (html : String) : String := semViewList (parseFragment html)

/-! ### Canonical trees: the class of encoded documents on which the
round trip is drift-free -/

/-- A text node with numeric format 0 (rendered bare, so adjacent ones
merge when re-parsed). -/
def isPlain0 (n : DNode) : Bool :=
  n.typ == "text" && (match n.formatVal with | .num 0 => true | _ => false)

/-- Whether a list starts with a bare text node. -/
def headPlain0 : List DNode → Bool
  | [] => false
  | n :: _ => isPlain0 n

mutual

/-- Canonical inline nodes (the flag tells whether link nodes are allowed,
links not nesting inside links): nonempty reserved-free text with format
bits within bold+italic, linebreaks, and links with reserved-free url, no
rel, and a nonempty canonical child sequence. -/
inductive TCInline : Bool → DNode → Prop where
  | text (allow : Bool) (t : String) (f : Nat) :
      safeStr t = true → t ≠ "" → f < 4 → TCInline allow (makeTextNode t f)
  | br (allow : Bool) : TCInline allow makeLinebreakNode
  | link (u : String) (cs : List DNode) :
      safeStr u = true → cs ≠ [] → TCSeq false cs →
      TCInline true (makeLinkNode u cs none)

/-- Canonical inline sequences: canonical nodes with no two consecutive
bare (format 0) text nodes. -/
inductive TCSeq : Bool → List DNode → Prop where
  | nil (allow : Bool) : TCSeq allow []
  | cons (allow : Bool) (n : DNode) (ns : List DNode) :
      TCInline allow n → (isPlain0 n && headPlain0 ns) = false →
      TCSeq allow ns → TCSeq allow (n :: ns)

end

/-- Canonical content of a paragraph-like block: either the single empty
padding text node, or a nonempty canonical inline sequence. -/
def TCContent (cs : List DNode) : Prop :=
  cs = [makeTextNode "" 0] ∨ (cs ≠ [] ∧ TCSeq true cs)

/-- Canonical list children starting at item value k: list items holding a
single reserved-free plain text node, numbered consecutively. -/
inductive TCItems : Nat → List DNode → Prop where
  | nil (k : Nat) : TCItems k []
  | item (k : Nat) (t : String) (rest : List DNode) :
      safeStr t = true → TCItems (k + 1) rest →
      TCItems k (makeListItemNode [makeTextNode t 0] k :: rest)

/-- Canonical blocks: headings, paragraphs, quotes with canonical content,
and flat lists of plain-text items. -/
inductive TCBlock : DNode → Prop where
  | heading (tag : String) (cs : List DNode) :
      tag ∈ (["h1", "h2", "h3", "h4", "h5", "h6"] : List String) → TCContent cs →
      TCBlock (makeHeadingNode tag cs)
  | para (cs : List DNode) : TCContent cs → TCBlock (makeParagraphNode cs)
  | quote (cs : List DNode) : TCContent cs → TCBlock (makeQuoteNode cs)
  | ulist (items : List DNode) : items ≠ [] → TCItems 1 items →
      TCBlock (makeListNode "bullet" "ul" items)
  | olist (items : List DNode) : items ≠ [] → TCItems 1 items →
      TCBlock (makeListNode "number" "ol" items)

/-- Canonical block sequences. -/
inductive TCBlocks : List DNode → Prop where
  | nil : TCBlocks []
  | cons (b : DNode) (bs : List DNode) : TCBlock b → TCBlocks bs →
      TCBlocks (b :: bs)

/-- Canonical documents: a nonempty canonical block sequence. -/
def TCDoc (cs : List DNode) : Prop := cs ≠ [] ∧ TCBlocks cs

/-! ### The forest a canonical tree's rendering parses back to -/

mutual

/-- Parse forest of one rendered inline node: bare text for format 0, the
emphasis wrappers for the bold/italic bits (strong inside em), a br
element for a linebreak, an anchor element for a link. -/
def forestOfInline : DNode → List HNode
  | .mk typ text fmt _ _ children fieldsUrl _ _ _ _ _ =>
    if typ == "text" then
      let t := orEmpty text
      let e := escapeHtml t
      let f := match fmt with
        | .num n => n
        | .nonNum => 0
      let core := if t == "" then ([] : List HNode) else [HNode.text e]
      let strongOuter := "<strong>" ++ e ++ "</strong>"
      let sb := if (f &&& FORMAT_BOLD) != 0 then
          [HNode.elem "strong" [] strongOuter core]
        else core
      let inner := if (f &&& FORMAT_BOLD) != 0 then strongOuter else e
      if (f &&& FORMAT_ITALIC) != 0 then
        [HNode.elem "em" [] ("<em>" ++ inner ++ "</em>") sb]
      else sb
    else if typ == "linebreak" then [HNode.elem "br" [] "<br>" []]
    else if typ == "link" then
      let u := escapeHtml (orEmpty fieldsUrl)
      [HNode.elem "a" [("href", u)]
        ("<a href=\"" ++ u ++ "\">" ++ renderInlineList children ++ "</a>")
        (forestOfInlineList children)]
    else []

/-- forestOfInline over a sequence. -/
def forestOfInlineList : List DNode → List HNode
  | [] => []
  | n :: ns => forestOfInline n ++ forestOfInlineList ns

end

mutual

/-- Parse tree of one rendered canonical block. -/
def forestOfBlock : DNode → HNode
  | n@(.mk typ _ _ tag listType children _ _ _ _ _ _) =>
    if typ == "heading" then
      let tg := match tag with
        | some t => if t == "" then "h2" else t
        | none => "h2"
      HNode.elem tg [] (renderBlockNode n) (forestOfInlineList children)
    else if typ == "paragraph" then
      HNode.elem "p" [] (renderBlockNode n) (forestOfInlineList children)
    else if typ == "quote" then
      HNode.elem "blockquote" [] (renderBlockNode n) (forestOfInlineList children)
    else if typ == "listitem" then
      HNode.elem "li" [] (renderBlockNode n) (forestOfInlineList children)
    else if typ == "list" then
      let tg := if listType == some "number" then "ol" else "ul"
      HNode.elem tg [] (renderBlockNode n) (forestOfBlockList children)
    else HNode.text ""

/-- forestOfBlock over a list's children. -/
def forestOfBlockList : List DNode → List HNode
  | [] => []
  | n :: ns => forestOfBlock n :: forestOfBlockList ns

end

/-- Parse forest of a rendered document: blocks with the decoder's newline
joiner in between (the newline parses back as a whitespace text node that
block classification drops). -/
def forestOfDoc : List DNode → List HNode
  | [] => []
  | [b] => [forestOfBlock b]
  | b :: bs => forestOfBlock b :: HNode.text "
" :: forestOfDoc bs


/-! ### Decidable canonical-class checkers (Boolean mirrors of the TC
predicates, for discharging hypotheses on concrete documents) -/

mutual

/-- Boolean check for TCInline. -/
def tcInlineB : Bool → DNode → Bool
  | _, .mk "text" (some t) (.num f) none none [] none none none none none none =>
      safeStr t && !(t == "") && decide (f < 4)
  | _, .mk "linebreak" none .nonNum none none [] none none none none none none => true
  | allow, .mk "link" none .nonNum none none cs (some u) none none none none none =>
      allow && safeStr u && !cs.isEmpty && tcSeqB false cs
  | _, _ => false

/-- Boolean check for TCSeq. -/
def tcSeqB : Bool → List DNode → Bool
  | _, [] => true
  | allow, n :: ns => tcInlineB allow n && !(isPlain0 n && headPlain0 ns) && tcSeqB allow ns

end

/-- Boolean check for the single empty padding text node. -/
def isPadText : DNode → Bool
  | .mk "text" (some "") (.num 0) none none [] none none none none none none => true
  | _ => false

/-- Boolean check for a singleton padding list. -/
def isPadList : List DNode → Bool
  | [n] => isPadText n
  | _ => false

/-- Boolean check for TCContent. -/
def tcContentB (cs : List DNode) : Bool :=
  isPadList cs || (!cs.isEmpty && tcSeqB true cs)

/-- Boolean check for TCItems. -/
def tcItemsB (k : Nat) : List DNode → Bool
  | [] => true
  | .mk "listitem" none .nonNum none none
        [.mk "text" (some t) (.num 0) none none [] none none none none none none]
        none none (some v) none none none :: rest =>
      safeStr t && (v == k) && tcItemsB (k + 1) rest
  | _ => false

/-- Boolean check for TCBlock. -/
def tcBlockB : DNode → Bool
  | .mk "heading" none .nonNum (some tg) none cs none none none none none none =>
      (tg == "h1" || tg == "h2" || tg == "h3" || tg == "h4" || tg == "h5" || tg == "h6")
        && tcContentB cs
  | .mk "paragraph" none .nonNum none none cs none none none none none none => tcContentB cs
  | .mk "quote" none .nonNum none none cs none none none none none none => tcContentB cs
  | .mk "list" none .nonNum (some "ul") (some "bullet") items none none none none none none =>
      !items.isEmpty && tcItemsB 1 items
  | .mk "list" none .nonNum (some "ol") (some "number") items none none none none none none =>
      !items.isEmpty && tcItemsB 1 items
  | _ => false

/-- Boolean check for TCBlocks. -/
def tcBlocksB : List DNode → Bool
  | [] => true
  | b :: bs => tcBlockB b && tcBlocksB bs

/-- Boolean check for TCDoc. -/
def tcDocB (cs : List DNode) : Bool := !cs.isEmpty && tcBlocksB cs

/-! ### Supported-only input fragments (the class of parse forests for
which the round trip is semantics-preserving) -/

/-- Whether a parse node is a bare text node. -/
def isTextNode : HNode → Bool
  | .text _ => true
  | _ => false

/-- Whether a parse forest starts with a bare text node. -/
def headIsText : List HNode → Bool
  | [] => false
  | n :: _ => isTextNode n

mutual

/-- Supported inline parse nodes with flat formatting: nonempty
reserved-free text, strong/b and em/i (em possibly around strong) holding
one nonempty text run, void br, and links carrying exactly an href
attribute with reserved-free target and nonempty supported children. -/
inductive FCInline : Bool → HNode → Prop where
  | text (allow : Bool) (raw : String) :
      safeStr raw = true → raw ≠ "" → FCInline allow (HNode.text raw)
  | strong (allow : Bool) (tag outer t : String) :
      (tag = "strong" ∨ tag = "b") → safeStr t = true → t ≠ "" →
      FCInline allow (HNode.elem tag [] outer [HNode.text t])
  | em (allow : Bool) (tag outer t : String) :
      (tag = "em" ∨ tag = "i") → safeStr t = true → t ≠ "" →
      FCInline allow (HNode.elem tag [] outer [HNode.text t])
  | emStrong (allow : Bool) (tagE tagS outerE outerS t : String) :
      (tagE = "em" ∨ tagE = "i") → (tagS = "strong" ∨ tagS = "b") →
      safeStr t = true → t ≠ "" →
      FCInline allow
        (HNode.elem tagE [] outerE [HNode.elem tagS [] outerS [HNode.text t]])
  | br (allow : Bool) (outer : String) : FCInline allow (HNode.elem "br" [] outer [])
  | link (u outer : String) (cs : List HNode) :
      safeStr u = true → cs ≠ [] → FCSeq false cs →
      FCInline true (HNode.elem "a" [("href", u)] outer cs)

/-- Supported inline sequences: supported nodes with no two consecutive
bare text nodes. -/
inductive FCSeq : Bool → List HNode → Prop where
  | nil (allow : Bool) : FCSeq allow []
  | cons (allow : Bool) (n : HNode) (ns : List HNode) :
      FCInline allow n → (isTextNode n && headIsText ns) = false →
      FCSeq allow ns → FCSeq allow (n :: ns)

end

/-- Supported list children: li elements holding one reserved-free text
run or nothing. -/
inductive FCItems : List HNode → Prop where
  | nil : FCItems []
  | itemText (outer t : String) (rest : List HNode) :
      safeStr t = true → t ≠ "" → FCItems rest →
      FCItems (HNode.elem "li" [] outer [HNode.text t] :: rest)
  | itemEmpty (outer : String) (rest : List HNode) :
      FCItems rest → FCItems (HNode.elem "li" [] outer [] :: rest)

/-- Supported block parse nodes. -/
inductive FCBlock : HNode → Prop where
  | heading (tag outer : String) (cs : List HNode) :
      tag ∈ (["h1", "h2", "h3", "h4", "h5", "h6"] : List String) → FCSeq true cs →
      FCBlock (HNode.elem tag [] outer cs)
  | para (outer : String) (cs : List HNode) :
      FCSeq true cs → FCBlock (HNode.elem "p" [] outer cs)
  | quote (outer : String) (cs : List HNode) :
      FCSeq true cs → FCBlock (HNode.elem "blockquote" [] outer cs)
  | ulist (outer : String) (lis : List HNode) :
      lis ≠ [] → FCItems lis → FCBlock (HNode.elem "ul" [] outer lis)
  | olist (outer : String) (lis : List HNode) :
      lis ≠ [] → FCItems lis → FCBlock (HNode.elem "ol" [] outer lis)

/-- Supported block sequences. -/
inductive FCBlocks : List HNode → Prop where
  | nil : FCBlocks []
  | cons (b : HNode) (bs : List HNode) : FCBlock b → FCBlocks bs → FCBlocks (b :: bs)

/-- Supported-only fragments: a nonempty sequence of supported blocks. -/
def FCDoc (fs : List HNode) : Prop := fs ≠ [] ∧ FCBlocks fs

/-! ### Claim theorems -/

/-- Claim C10: lexicalToHtml guards the public entry point: a nullish
document, a document whose root is missing, and a root whose children
field is missing all decode to the empty string. -/
theorem c10_entry_guard :
    lexicalToHtml DDoc.nullish = "" ∧
    lexicalToHtml (DDoc.mk none) = "" ∧
    lexicalToHtml (DDoc.mk (some (DRoot.mk none))) = "" :=
  ⟨rfl, rfl, rfl⟩

/-- Claim C9: the decoder is a total function (it is defined as one here,
so it never raises); an unknown block kind renders by concatenating its
children's block renderings, and an upload node whose stored address is
absent (or empty, which JavaScript treats the same) renders to the empty
string instead of throwing. -/
theorem c9_decoder_total (n : DNode) :
    (n.typ ∉ knownBlockTypes → renderBlockNode n = renderBlockList n.children) ∧
    (n.typ = "upload" → (n.valueUrlVal = none ∨ n.valueUrlVal = some "") →
      renderBlockNode n = "") := by
  obtain ⟨typ, text, fmt, tag, lt, cs, fu, fr, iv, vu, va, hx⟩ := n
  constructor
  · intro hn
    simp [knownBlockTypes] at hn
    simp [renderBlockNode, DNode.typ, DNode.children] at *
    simp [hn.1, hn.2.1, hn.2.2.1, hn.2.2.2.1, hn.2.2.2.2.1, hn.2.2.2.2.2.1,
      hn.2.2.2.2.2.2]
  · intro ht hv
    simp [DNode.typ] at ht
    subst ht
    rcases hv with hv | hv <;>
      simp [DNode.valueUrlVal] at hv <;>
      simp [renderBlockNode, hv, orEmpty]

/-- Claim C9 witness: a node of unknown kind with one empty-paragraph child
renders as its child's rendering, and an upload node with no address
renders empty. -/
theorem c9_witness :
    renderBlockNode (DNode.mk "custom" none .nonNum none none
        [makeParagraphNode [makeTextNode "z" 0]] none none none none none none)
      = renderBlockList [makeParagraphNode [makeTextNode "z" 0]] ∧
    renderBlockNode (DNode.mk "upload" none .nonNum none none [] none none none none
        (some "alt text") none) = "" := by
  constructor
  · exact (c9_decoder_total _).1 (by decide)
  · exact (c9_decoder_total _).2 rfl (Or.inl rfl)

/-- Evaluation of the modelled parser on the table example. -/
theorem parseTableEval : parseFragment "<table><tr><td>a</td></tr></table>"
    = [HNode.elem "table" [] "<table><tr><td>a</td></tr></table>"
        [HNode.elem "tr" [] "<tr><td>a</td></tr>"
          [HNode.elem "td" [] "<td>a</td>" [HNode.text "a"]]]] := by
  simp +decide [parseFragment, parseNodes, parseAttrs, takeWhileName, takeUntilChar,
    consumeCloseTag, isNameChar, voidTags, toLowerStr]

/-- Claim C4: a table block is opaque: the encoder stores the element's
outer markup verbatim without descending into it, the decoder emits the
stored payload unchanged, and on the concrete fragment the decoded output
is byte-identical to the source markup. -/
theorem c4_tables_verbatim :
    (∀ (tag : String) (attrs : List (String × String)) (outer : String)
        (children : List HNode), toLowerStr tag = "table" →
      convertBlockElement (HNode.elem tag attrs outer children) = [makeTableNode outer]) ∧
    (∀ outer : String, renderBlockNode (makeTableNode outer) = outer) ∧
    lexicalToHtml (htmlToLexical "<table><tr><td>a</td></tr></table>")
      = "<table><tr><td>a</td></tr></table>" := by
  refine ⟨?_, ?_, ?_⟩
  · intro tag attrs outer children htag
    simp [convertBlockElement, htag]
  · intro outer
    simp [renderBlockNode, makeTableNode, orEmpty]
  · simp +decide [htmlToLexical, parseTableEval, convertChildBlocksList,
      convertChildBlocksGo, convertBlockElement, blockTags, toLowerStr, trimStr,
      makeTableNode, lexicalToHtml, renderBlockNode, orEmpty]

/-- Claim C4 witness: the per-element facts instantiated on the concrete
table element. -/
theorem c4_witness :
    convertBlockElement (HNode.elem "table" [] "<table><tr><td>x</td></tr></table>"
        [HNode.text "x"]) = [makeTableNode "<table><tr><td>x</td></tr></table>"] ∧
    renderBlockNode (makeTableNode "<table><tr><td>x</td></tr></table>")
      = "<table><tr><td>x</td></tr></table>" :=
  ⟨c4_tables_verbatim.1 "table" [] "<table><tr><td>x</td></tr></table>"
      [HNode.text "x"] (by decide),
    c4_tables_verbatim.2.1 "<table><tr><td>x</td></tr></table>"⟩

/-- Evaluation of the modelled parser on the nested-emphasis example. -/
theorem parseEmphasisEval : parseFragment "<p><strong>Save <em>45%</em></strong></p>"
    = [HNode.elem "p" [] "<p><strong>Save <em>45%</em></strong></p>"
        [HNode.elem "strong" [] "<strong>Save <em>45%</em></strong>"
          [HNode.text "Save ", HNode.elem "em" [] "<em>45%</em>" [HNode.text "45%"]]]] := by
  simp +decide [parseFragment, parseNodes, parseAttrs, takeWhileName, takeUntilChar,
    consumeCloseTag, isNameChar, voidTags, toLowerStr]

/-- Claim C6: encoding the paragraph with nested emphasis yields a paragraph
whose children are exactly a text node "Save " carrying only the bold bit,
followed by a text node "45%" carrying bold and italic both: the emphasis
tags OR their bits into the inherited bitmask and the combined mask sits at
the text leaf. -/
theorem c6_nested_emphasis_bits :
    htmlToLexical "<p><strong>Save <em>45%</em></strong></p>"
      = DDoc.mk (some (DRoot.mk (some [makeParagraphNode
          [makeTextNode "Save " FORMAT_BOLD,
           makeTextNode "45%" (FORMAT_BOLD ||| FORMAT_ITALIC)]]))) := by
  simp +decide [htmlToLexical, parseEmphasisEval, convertChildBlocksList,
    convertChildBlocksGo, convertBlockElement, convertInlineList, blockTags,
    toLowerStr, trimStr, FORMAT_BOLD, FORMAT_ITALIC]

/-- Evaluation of the modelled parser on the nested-list example. -/
theorem parseNestedListEval : parseFragment "<ul><li>One<ul><li>Nested</li></ul></li></ul>"
    = [HNode.elem "ul" [] "<ul><li>One<ul><li>Nested</li></ul></li></ul>"
        [HNode.elem "li" [] "<li>One<ul><li>Nested</li></ul></li>"
          [HNode.text "One",
           HNode.elem "ul" [] "<ul><li>Nested</li></ul>"
             [HNode.elem "li" [] "<li>Nested</li>" [HNode.text "Nested"]]]]] := by
  simp +decide [parseFragment, parseNodes, parseAttrs, takeWhileName, takeUntilChar,
    consumeCloseTag, isNameChar, voidTags, toLowerStr]

/-- Claim C5: each li child of a list contributes its list-item node
immediately followed by its nested lists as siblings in the parent list's
child sequence, and on the concrete example the nested list node follows
the "One" list-item as its sibling rather than its child. -/
theorem c5_nested_list_flattening :
    (∀ (tag : String) (attrs : List (String × String)) (outer : String)
        (children rest : List HNode) (idx : Nat), toLowerStr tag = "li" →
      convertListItems (HNode.elem tag attrs outer children :: rest) idx
        = (makeListItemNode
            (if (liPartition children).2.isEmpty then [makeTextNode "" 0]
              else (liPartition children).2) idx :: (liPartition children).1)
          ++ convertListItems rest (idx + 1)) ∧
    htmlToLexical "<ul><li>One<ul><li>Nested</li></ul></li></ul>"
      = DDoc.mk (some (DRoot.mk (some [makeListNode "bullet" "ul"
          [makeListItemNode [makeTextNode "One" 0] 1,
           makeListNode "bullet" "ul" [makeListItemNode [makeTextNode "Nested" 0] 1]]]))) := by
  constructor
  · intro tag attrs outer children rest idx htag
    simp [convertListItems, htag]
  · simp +decide [htmlToLexical, parseNestedListEval, convertChildBlocksList,
      convertChildBlocksGo, convertBlockElement, convertListItems, liPartition,
      convertInlineChildren, convertInlineList, blockTags, toLowerStr, trimStr]

/-- Claim C5 witness: the per-li fact instantiated on the concrete li
element of the example. -/
theorem c5_witness :
    convertListItems [HNode.elem "li" [] "<li>x<ul></ul></li>"
        [HNode.text "x", HNode.elem "ul" [] "<ul></ul>" []]] 1
      = (makeListItemNode
          (if (liPartition [HNode.text "x", HNode.elem "ul" [] "<ul></ul>" []]).2.isEmpty
            then [makeTextNode "" 0]
            else (liPartition [HNode.text "x", HNode.elem "ul" [] "<ul></ul>" []]).2) 1
          :: (liPartition [HNode.text "x", HNode.elem "ul" [] "<ul></ul>" []]).1)
        ++ convertListItems [] 2 :=
  c5_nested_list_flattening.1 "li" [] "<li>x<ul></ul></li>"
    [HNode.text "x", HNode.elem "ul" [] "<ul></ul>" []] [] 1 (by decide)

/-- Evaluation of the modelled parser on the empty-anchor example. -/
theorem parseEmptyAnchorEval : parseFragment "<p><a href=\"https://x.com\"></a>Stay</p>"
    = [HNode.elem "p" [] "<p><a href=\"https://x.com\"></a>Stay</p>"
        [HNode.elem "a" [("href", "https://x.com")] "<a href=\"https://x.com\"></a>" [],
         HNode.text "Stay"]] := by
  simp +decide [parseFragment, parseNodes, parseAttrs, takeWhileName, takeUntilChar,
    consumeCloseTag, isNameChar, voidTags, toLowerStr]

/-- Claim C8: an anchor whose inline conversion produces no children is
omitted entirely: the inline loop emits a link node only when the recursion
result is nonempty, and the fragment with the empty anchor encodes to a
tree containing zero link nodes (its other text is kept). -/
theorem c8_empty_anchor_omitted :
    (∀ (tag : String) (attrs : List (String × String)) (outer : String)
        (children rest : List HNode) (fmt : Nat), toLowerStr tag = "a" →
      convertInlineList children fmt = [] →
      convertInlineList (HNode.elem tag attrs outer children :: rest) fmt
        = convertInlineList rest fmt) ∧
    docLinkCount (htmlToLexical "<p><a href=\"https://x.com\"></a>Stay</p>") = 0 ∧
    docTextRuns (htmlToLexical "<p><a href=\"https://x.com\"></a>Stay</p>")
      = [("Stay", 0)] := by
  refine ⟨?_, ?_, ?_⟩
  · intro tag attrs outer children rest fmt htag hempty
    simp [convertInlineList, htag, hempty]
  · simp +decide [docLinkCount, htmlToLexical, parseEmptyAnchorEval,
      convertChildBlocksList, convertChildBlocksGo, convertBlockElement,
      convertInlineList, blockTags, toLowerStr, trimStr, getAttr, orEmpty,
      docChildren, linkCountList, linkCount, makeParagraphNode, makeTextNode]
  · simp +decide [docTextRuns, htmlToLexical, parseEmptyAnchorEval,
      convertChildBlocksList, convertChildBlocksGo, convertBlockElement,
      convertInlineList, blockTags, toLowerStr, trimStr, getAttr, orEmpty,
      docChildren, textRunsList, textRuns, makeParagraphNode, makeTextNode]

/-- Claim C8 witness: the general fact instantiated on a concrete empty
anchor followed by a text node. -/
theorem c8_witness :
    convertInlineList [HNode.elem "a" [("href", "https://x.com")]
        "<a href=\"https://x.com\"></a>" [], HNode.text "Stay"] 0
      = convertInlineList [HNode.text "Stay"] 0 :=
  c8_empty_anchor_omitted.1 "a" [("href", "https://x.com")]
    "<a href=\"https://x.com\"></a>" [] [HNode.text "Stay"] 0 (by decide)
    (by simp [convertInlineList])

/-- Evaluation of the modelled parser on the bold-in-div example. -/
theorem parseDivStrongEval : parseFragment "<div><strong>x</strong></div>"
    = [HNode.elem "div" [] "<div><strong>x</strong></div>"
        [HNode.elem "strong" [] "<strong>x</strong>" [HNode.text "x"]]] := by
  simp +decide [parseFragment, parseNodes, parseAttrs, takeWhileName, takeUntilChar,
    consumeCloseTag, isNameChar, voidTags, toLowerStr]

/-- Evaluation of the modelled parser on the bold-in-li example. -/
theorem parseLiStrongEval : parseFragment "<ul><li><strong>x</strong></li></ul>"
    = [HNode.elem "ul" [] "<ul><li><strong>x</strong></li></ul>"
        [HNode.elem "li" [] "<li><strong>x</strong></li>"
          [HNode.elem "strong" [] "<strong>x</strong>" [HNode.text "x"]]]] := by
  simp +decide [parseFragment, parseNodes, parseAttrs, takeWhileName, takeUntilChar,
    consumeCloseTag, isNameChar, voidTags, toLowerStr]

/-- Claim C1 counterexample: encoding the two fragments of the claim gives
in each case a single text run "x" whose format bitmask is 0, and 0 does
not have the bold bit set — the claim asserts the bold bit (bit 1) would
be set on these runs. -/
theorem c1_counterexample :
    docTextRuns (htmlToLexical "<div><strong>x</strong></div>") = [("x", 0)] ∧
    docTextRuns (htmlToLexical "<ul><li><strong>x</strong></li></ul>") = [("x", 0)] ∧
    0 &&& FORMAT_BOLD = 0 := by
  refine ⟨?_, ?_, by decide⟩
  · simp +decide [docTextRuns, htmlToLexical, parseDivStrongEval,
      convertChildBlocksList, convertChildBlocksGo, convertBlockElement,
      convertInlineChildren, convertInlineList, blockTags, toLowerStr, trimStr,
      docChildren, textRunsList, textRuns, makeParagraphNode, makeTextNode, orEmpty]
  · simp +decide [docTextRuns, htmlToLexical, parseLiStrongEval,
      convertChildBlocksList, convertChildBlocksGo, convertBlockElement,
      convertListItems, liPartition, convertInlineChildren, convertInlineList,
      blockTags, toLowerStr, trimStr, docChildren, textRunsList, textRuns,
      makeParagraphNode, makeTextNode, makeListItemNode, makeListNode, orEmpty]

/-- Claim C1 as amended: a non-block element at block position, and a
non-list element child of an li, contribute the inline conversion of their
children at inherited bitmask 0 — the element's own tag (even strong or
em) is never dispatched, so no formatting bit from it reaches the text
leaves; in particular both fragments of the claim yield the text run "x"
with format 0. -/
theorem c1_amended_inline_at_block :
    (∀ (tag : String) (attrs : List (String × String)) (outer : String)
        (children rest : List HNode) (pending : List DNode),
      blockTags.contains (toLowerStr tag) = false →
      convertChildBlocksGo (HNode.elem tag attrs outer children :: rest) pending
        = convertChildBlocksGo rest (pending ++ convertInlineList children 0)) ∧
    (∀ (tag : String) (attrs : List (String × String)) (outer : String)
        (children rest : List HNode),
      toLowerStr tag ≠ "ul" → toLowerStr tag ≠ "ol" →
      liPartition (HNode.elem tag attrs outer children :: rest)
        = ((liPartition rest).1, convertInlineList children 0 ++ (liPartition rest).2)) := by
  constructor
  · intro tag attrs outer children rest pending hblock
    have hmem : toLowerStr tag ∉ blockTags := by simpa using hblock
    simp [convertChildBlocksGo, convertInlineChildren, hmem]
  · intro tag attrs outer children rest h1 h2
    simp [liPartition, convertInlineChildren, h1, h2]

/-- Claim C1 witness: the two amended facts instantiated on the strong
element of the claim's fragments. -/
theorem c1_witness :
    convertChildBlocksGo [HNode.elem "strong" [] "<strong>x</strong>" [HNode.text "x"]] []
      = convertChildBlocksGo [] ([] ++ convertInlineList [HNode.text "x"] 0) ∧
    liPartition [HNode.elem "strong" [] "<strong>x</strong>" [HNode.text "x"]]
      = ((liPartition []).1, convertInlineList [HNode.text "x"] 0 ++ (liPartition []).2) :=
  ⟨c1_amended_inline_at_block.1 "strong" [] "<strong>x</strong>" [HNode.text "x"] [] []
      (by decide),
    c1_amended_inline_at_block.2 "strong" [] "<strong>x</strong>" [HNode.text "x"] []
      (by decide) (by decide)⟩

/-- invList is the conjunction of invNode over the list. -/
theorem invList_eq_all (l : List DNode) : invList l = l.all invNode := by
  induction l with
  | nil => simp [invList]
  | cons n ns ih => simp [invList, ih]

/-- Splitting inlineOk over a list. -/
theorem inlineOk_split (l : List DNode) (h : l.all inlineOk = true) :
    l.all isInlineType = true ∧ l.all invNode = true := by
  induction l with
  | nil => simp
  | cons n ns ih =>
    rw [List.all_cons, Bool.and_eq_true] at h
    have h1 : isInlineType n = true ∧ invNode n = true := by
      have hn := h.1
      rw [inlineOk, Bool.and_eq_true] at hn
      exact hn
    obtain ⟨ha, hb⟩ := ih h.2
    constructor <;> rw [List.all_cons] <;> simp [h1.1, h1.2, ha, hb]

/-- Inline conversion only produces inline nodes that satisfy the
invariant internally. -/
theorem invInline (cs : List HNode) (fmt : Nat) :
    (convertInlineList cs fmt).all inlineOk = true := by
  induction cs, fmt using convertInlineList.induct with
  | case1 fmt => simp [convertInlineList]
  | case2 raw rest fmt ih =>
    simp only [convertInlineList]
    rcases h : raw == "" with _ | _ <;>
      simp [h, ih, inlineOk, isInlineType, invNode, invList, makeTextNode, DNode.typ]
  | case3 tag attrs outer children rest fmt ihb ihi ih0 ihrest =>
    simp only [convertInlineList, List.all_append]
    split_ifs with h1 h2 h3 h4 h5
    · simp [ihb, ihrest]
    · simp [ihi, ihrest]
    · rcases inlineOk_split _ ih0 with ⟨ha, hb⟩
      simp +decide [ihrest, inlineOk, isInlineType, invNode, makeLinkNode,
        DNode.typ, DNode.children, invList_eq_all, hb]
    · simp [ihrest]
    · simp +decide [ihrest, inlineOk, isInlineType, invNode, makeLinebreakNode,
        DNode.typ, DNode.children, invList]
    · simp [ih0, ihrest]

mutual

theorem invBlockElem : ∀ (el : HNode), invList (convertBlockElement el) = true
  | .text _ => by simp [convertBlockElement, invList]
  | .elem tag attrs outer children => by
    have hItems1 := (invListItems children 1).1
    have hItems2 := (invListItems children 1).2
    have hGo := invGo children [] (by simp)
    rcases inlineOk_split _ (invInline children 0) with ⟨hIt, hIn⟩
    rcases hItems2 with hNil | hAny <;>
      [skip; skip] <;>
      simp only [convertBlockElement] <;>
      split_ifs <;>
      simp_all +decide [invList, invNode, makeHeadingNode, makeParagraphNode,
        makeQuoteNode, makeListNode, makeListItemNode, makeTextNode, makeTableNode,
        isInlineType, DNode.typ, DNode.children, invList_eq_all, List.all_append]

theorem invListItems : ∀ (cs : List HNode) (idx : Nat),
    invList (convertListItems cs idx) = true ∧
      (convertListItems cs idx = [] ∨
        (convertListItems cs idx).any (fun n => n.typ == "listitem") = true)
  | [], _ => by simp [convertListItems, invList]
  | HNode.text raw :: rest, idx => by
    simpa only [convertListItems] using invListItems rest idx
  | HNode.elem tag attrs outer children :: rest, idx => by
    have hLi1 := (invLiPart children).1
    rcases inlineOk_split _ (invLiPart children).2 with ⟨hIt, hIn⟩
    have hRest := invListItems rest (idx + 1)
    have hRest0 := invListItems rest idx
    simp only [convertListItems]
    split_ifs with h1 h2
    · refine ⟨?_, Or.inr ?_⟩
      · simp only [invList_eq_all, List.all_append, List.all_cons] at hLi1 hRest ⊢
        simp_all +decide [invNode, makeListItemNode, makeTextNode, isInlineType,
          DNode.typ, DNode.children, invList_eq_all]
      · simp +decide [makeListItemNode, DNode.typ]
    · refine ⟨?_, Or.inr ?_⟩
      · simp only [invList_eq_all, List.all_append, List.all_cons] at hLi1 hRest ⊢
        simp_all +decide [invNode, makeListItemNode, isInlineType,
          DNode.typ, DNode.children, invList_eq_all]
      · simp +decide [makeListItemNode, DNode.typ]
    · exact hRest0

theorem invLiPart : ∀ (cs : List HNode),
    invList (liPartition cs).1 = true ∧ (liPartition cs).2.all inlineOk = true
  | [] => by simp [liPartition, invList]
  | HNode.text raw :: rest => by
    have ih1 := (invLiPart rest).1
    have ih2 := (invLiPart rest).2
    simp only [liPartition]
    rcases h : raw == "" with _ | _ <;>
      simp +decide [h, ih1, ih2, inlineOk, isInlineType, invNode, makeTextNode,
        DNode.typ, DNode.children, invList, List.all_append]
  | HNode.elem tag attrs outer children :: rest => by
    have ih1 := (invLiPart rest).1
    have ih2 := (invLiPart rest).2
    simp only [liPartition]
    split_ifs with h1
    · have hB := invBlockElem (HNode.elem tag attrs outer children)
      simp only [invList_eq_all, List.all_append, Bool.and_eq_true] at hB ih1 ⊢
      exact ⟨⟨hB, ih1⟩, ih2⟩
    · have hI := invInline children 0
      simp only [convertInlineChildren, List.all_append]
      exact ⟨ih1, by simp [hI, ih2]⟩

theorem invGo : ∀ (cs : List HNode) (pending : List DNode),
    pending.all inlineOk = true → invList (convertChildBlocksGo cs pending) = true
  | [], pending => fun hp => by
    rcases inlineOk_split _ hp with ⟨hIt, hIn⟩
    simp only [convertChildBlocksGo]
    split_ifs with h1 <;>
      simp_all +decide [invList, invNode, makeParagraphNode, DNode.typ, DNode.children,
        invList_eq_all]
  | HNode.text raw :: rest, pending => fun hp => by
    simp only [convertChildBlocksGo]
    split_ifs with h1
    · exact invGo rest pending hp
    · refine invGo rest (pending ++ [makeTextNode (trimStr raw) 0]) ?_
      simp [List.all_append, hp, inlineOk, isInlineType, invNode, makeTextNode,
        DNode.typ, DNode.children, invList]
  | HNode.elem tag attrs outer children :: rest, pending => fun hp => by
    have hB := invBlockElem (HNode.elem tag attrs outer children)
    have hR := invGo rest [] (by simp)
    rcases inlineOk_split _ hp with ⟨hIt, hIn⟩
    simp only [convertChildBlocksGo]
    split_ifs with h1 h2
    · simp_all +decide [invList_eq_all, List.all_append, List.all_eq_true, List.all_cons,
        invNode, makeParagraphNode, DNode.typ, DNode.children, invList]
    · simp_all +decide [invList_eq_all, List.all_append, List.all_eq_true, List.all_cons,
        invNode, makeParagraphNode, DNode.typ, DNode.children, invList]
    · refine invGo rest (pending ++ convertInlineChildren (HNode.elem tag attrs outer children) 0) ?_
      have hI := invInline children 0
      simp [convertInlineChildren, List.all_append, hp, hI]

end

/-- Claim C7: in every encoded document, each paragraph, heading, quote and
list-item node has a nonempty, all-inline child list (so in particular at
least one inline child; an empty source block becomes a single empty text
node), and each list node has at least one list-item child — recursively
through the whole tree, for every input. -/
theorem c7_invariants (html : String) :
    invList (docChildren (htmlToLexical html)) = true := by
  simp only [htmlToLexical, docChildren]
  split_ifs with h1
  · simp +decide [invList, invNode, makeParagraphNode, makeTextNode, isInlineType,
      DNode.typ, DNode.children]
  · exact invGo (parseFragment html) [] (by simp)

/-- Evaluation of the modelled parser on the ampersand paragraph. -/
theorem parseAmpEval : parseFragment "<p>a & b</p>"
    = [HNode.elem "p" [] "<p>a & b</p>" [HNode.text "a & b"]] := by
  simp +decide [parseFragment, parseNodes, parseAttrs, takeWhileName, takeUntilChar,
    consumeCloseTag, isNameChar, voidTags, toLowerStr]

/-- Evaluation of the modelled parser on the once-escaped paragraph. -/
theorem parseAmpEscEval : parseFragment "<p>a &amp; b</p>"
    = [HNode.elem "p" [] "<p>a &amp; b</p>" [HNode.text "a &amp; b"]] := by
  simp +decide [parseFragment, parseNodes, parseAttrs, takeWhileName, takeUntilChar,
    consumeCloseTag, isNameChar, voidTags, toLowerStr]

/-- First-pass encoding of the ampersand paragraph. -/
theorem encAmpEval : htmlToLexical "<p>a & b</p>"
    = DDoc.mk (some (DRoot.mk (some [makeParagraphNode [makeTextNode "a & b" 0]]))) := by
  simp +decide [htmlToLexical, parseAmpEval, convertChildBlocksList, convertChildBlocksGo,
    convertBlockElement, convertInlineList, blockTags, toLowerStr, trimStr]

/-- First-pass decoding: the ampersand is escaped once. -/
theorem decAmpEval :
    lexicalToHtml (DDoc.mk (some (DRoot.mk (some
      [makeParagraphNode [makeTextNode "a & b" 0]])))) = "<p>a &amp; b</p>" := by
  simp +decide [lexicalToHtml, renderBlockNode, renderInlineList, renderInlineNode,
    makeParagraphNode, makeTextNode, escapeHtml, escapeChar, orEmpty, FORMAT_BOLD,
    FORMAT_ITALIC]

/-- Second-pass encoding: the raw text of the re-parsed fragment retains
the entity, so the text run now contains an escaped ampersand. -/
theorem encAmpEscEval : htmlToLexical "<p>a &amp; b</p>"
    = DDoc.mk (some (DRoot.mk (some [makeParagraphNode [makeTextNode "a &amp; b" 0]]))) := by
  simp +decide [htmlToLexical, parseAmpEscEval, convertChildBlocksList,
    convertChildBlocksGo, convertBlockElement, convertInlineList, blockTags,
    toLowerStr, trimStr]

/-- Second-pass decoding escapes the ampersand again. -/
theorem decAmpEscEval :
    lexicalToHtml (DDoc.mk (some (DRoot.mk (some
      [makeParagraphNode [makeTextNode "a &amp; b" 0]])))) = "<p>a &amp;amp; b</p>" := by
  simp +decide [lexicalToHtml, renderBlockNode, renderInlineList, renderInlineNode,
    makeParagraphNode, makeTextNode, escapeHtml, escapeChar, orEmpty, FORMAT_BOLD,
    FORMAT_ITALIC]

/-- Claim C3 counterexample: for h = "<p>a & b</p>" the composite
decode(encode(decode(encode(h)))) is "<p>a &amp;amp; b</p>" while
decode(encode(h)) is "<p>a &amp; b</p>": the encoder reads raw text (the
entity stays escaped) and the decoder escapes it again, so repeated passes
drift. -/
theorem c3_counterexample :
    lexicalToHtml (htmlToLexical "<p>a & b</p>") = "<p>a &amp; b</p>" ∧
    lexicalToHtml (htmlToLexical (lexicalToHtml (htmlToLexical "<p>a & b</p>")))
      = "<p>a &amp;amp; b</p>" ∧
    lexicalToHtml (htmlToLexical (lexicalToHtml (htmlToLexical "<p>a & b</p>")))
      ≠ lexicalToHtml (htmlToLexical "<p>a & b</p>") := by
  have h1 : lexicalToHtml (htmlToLexical "<p>a & b</p>") = "<p>a &amp; b</p>" := by
    rw [encAmpEval, decAmpEval]
  refine ⟨h1, ?_, ?_⟩
  · rw [h1, encAmpEscEval, decAmpEscEval]
  · rw [h1, encAmpEscEval, decAmpEscEval]
    decide

/-- Encoding of the nested-list example (flattened: the inner list becomes
a sibling of its item). -/
theorem encNestedEval : htmlToLexical "<ul><li>One<ul><li>Nested</li></ul></li></ul>"
    = DDoc.mk (some (DRoot.mk (some [makeListNode "bullet" "ul"
        [makeListItemNode [makeTextNode "One" 0] 1,
         makeListNode "bullet" "ul" [makeListItemNode [makeTextNode "Nested" 0] 1]]]))) := by
  simp +decide [htmlToLexical, parseNestedListEval, convertChildBlocksList,
    convertChildBlocksGo, convertBlockElement, convertListItems, liPartition,
    convertInlineChildren, convertInlineList, blockTags, toLowerStr, trimStr]

/-- Decoding of the flattened tree: the nested ul is emitted after the
closing li tag. -/
theorem decNestedEval :
    lexicalToHtml (DDoc.mk (some (DRoot.mk (some [makeListNode "bullet" "ul"
      [makeListItemNode [makeTextNode "One" 0] 1,
       makeListNode "bullet" "ul" [makeListItemNode [makeTextNode "Nested" 0] 1]]]))))
    = "<ul><li>One</li><ul><li>Nested</li></ul></ul>" := by
  simp +decide [lexicalToHtml, renderBlockNode, renderBlockList, renderInlineList,
    renderInlineNode, makeListNode, makeListItemNode, makeTextNode, escapeHtml,
    escapeChar, orEmpty, FORMAT_BOLD, FORMAT_ITALIC]

/-- Evaluation of the modelled parser on the decoded flattened list. -/
theorem parseFlatListEval : parseFragment "<ul><li>One</li><ul><li>Nested</li></ul></ul>"
    = [HNode.elem "ul" [] "<ul><li>One</li><ul><li>Nested</li></ul></ul>"
        [HNode.elem "li" [] "<li>One</li>" [HNode.text "One"],
         HNode.elem "ul" [] "<ul><li>Nested</li></ul>"
           [HNode.elem "li" [] "<li>Nested</li>" [HNode.text "Nested"]]]] := by
  simp +decide [parseFragment, parseNodes, parseAttrs, takeWhileName, takeUntilChar,
    consumeCloseTag, isNameChar, voidTags, toLowerStr]

/-- Claim C2 counterexample: the fragment uses only supported tags with
flat formatting, yet encoding then decoding does not preserve the tag
nesting of lists: the nested ul moves from inside the li to its sibling
position, so the semantic views (text content plus supported-tag nesting)
of input and round-tripped output differ. -/
theorem c2_counterexample :
    semViewFragment "<ul><li>One<ul><li>Nested</li></ul></li></ul>"
      = "ul(li(Oneul(li(Nested))))" ∧
    semViewFragment (lexicalToHtml (htmlToLexical "<ul><li>One<ul><li>Nested</li></ul></li></ul>"))
      = "ul(li(One)ul(li(Nested)))" ∧
    semViewFragment (lexicalToHtml (htmlToLexical "<ul><li>One<ul><li>Nested</li></ul></li></ul>"))
      ≠ semViewFragment "<ul><li>One<ul><li>Nested</li></ul></li></ul>" := by
  have h1 : semViewFragment "<ul><li>One<ul><li>Nested</li></ul></li></ul>"
      = "ul(li(Oneul(li(Nested))))" := by
    rw [semViewFragment, parseNestedListEval]
    simp +decide [semView, semViewList, semTags, toLowerStr, normText, unescapeChars,
      collapseWsGo, trimList, isSpaceChar]
  have h2 : semViewFragment (lexicalToHtml (htmlToLexical "<ul><li>One<ul><li>Nested</li></ul></li></ul>"))
      = "ul(li(One)ul(li(Nested)))" := by
    rw [encNestedEval, decNestedEval, semViewFragment, parseFlatListEval]
    simp +decide [semView, semViewList, semTags, toLowerStr, normText, unescapeChars,
      collapseWsGo, trimList, isSpaceChar]
  refine ⟨h1, h2, ?_⟩
  rw [h1, h2]
  decide

/-! ### Helper lemmas for the round-trip theorems -/

/-- String.join distributes over cons. -/
theorem stringJoin_cons (s : String) (l : List String) :
    String.join (s :: l) = s ++ String.join l := by
  have aux : ∀ (l : List String) (a : String),
      List.foldl (· ++ ·) a l = a ++ List.foldl (· ++ ·) "" l := by
    intro l
    induction l with
    | nil => intro a; simp [String.append_empty]
    | cons t ts ih =>
      intro a
      simp only [List.foldl_cons]
      rw [ih (a ++ t), ih ("" ++ t), String.empty_append, String.append_assoc]
  simp only [String.join, List.foldl_cons]
  rw [aux l ("" ++ s), String.empty_append]

/-- escapeHtml leaves a reserved-free string unchanged. -/
theorem escapeHtml_safe (t : String) (h : safeStr t = true) : escapeHtml t = t := by
  obtain ⟨l⟩ := t
  simp only [safeStr] at h
  simp only [escapeHtml]
  show String.join (List.map escapeChar (String.mk l).data) = String.mk l
  induction l with
  | nil => rfl
  | cons c cs ih =>
    rw [List.all_cons, Bool.and_eq_true] at h
    obtain ⟨hc0, hrest⟩ := h
    have hc : escapeChar c = String.singleton c := by
      rw [safeChar, Bool.not_eq_true', Bool.or_eq_false_iff, Bool.or_eq_false_iff,
        Bool.or_eq_false_iff] at hc0
      obtain ⟨⟨⟨ha, hb⟩, hg⟩, hq⟩ := hc0
      simp [escapeChar, ha, hb, hg, hq]
    have ih2 := ih hrest
    show String.join (escapeChar c :: List.map escapeChar cs) = String.mk (c :: cs)
    rw [stringJoin_cons, hc, ih2]
    apply String.ext
    simp [String.singleton]

/-- takeUntilChar scans past characters different from the stop character. -/
theorem takeUntilChar_append (stop : Char) (l r : List Char)
    (h : ∀ c ∈ l, (c == stop) = false) :
    takeUntilChar stop (l ++ stop :: r) = (l, stop :: r) := by
  induction l with
  | nil => simp [takeUntilChar]
  | cons c cs ih =>
    have hc := h c (by simp)
    have ih2 := ih (fun x hx => h x (by simp [hx]))
    simp [takeUntilChar, hc, ih2]

/-- takeWhileName scans exactly a name prefix. -/
theorem takeWhileName_append (nm r : List Char)
    (h : ∀ c ∈ nm, isNameChar c = true)
    (hr : ∀ c ∈ r.head?, isNameChar c = false) :
    takeWhileName (nm ++ r) = (nm, r) := by
  induction nm with
  | nil =>
    cases r with
    | nil => simp [takeWhileName]
    | cons c cs =>
      have hc := hr c (by simp)
      simp [takeWhileName, hc]
  | cons c cs ih =>
    have hc := h c (by simp)
    have ih2 := ih (fun x hx => h x (by simp [hx]))
    simp [takeWhileName, hc, ih2]

/-- A reserved-free string contains no double quote. -/
theorem safe_no_quote (u : List Char) (h : ∀ c ∈ u, safeChar c = true) :
    ∀ c ∈ u, (c == '"') = false := by
  intro c hc
  have := h c hc
  rw [safeChar, Bool.not_eq_true', Bool.or_eq_false_iff, Bool.or_eq_false_iff,
    Bool.or_eq_false_iff] at this
  exact this.2

/-- A reserved-free string contains no angle bracket opener. -/
theorem safe_no_lt (u : List Char) (h : ∀ c ∈ u, safeChar c = true) :
    ∀ c ∈ u, (c == '<') = false := by
  intro c hc
  have := h c hc
  rw [safeChar, Bool.not_eq_true', Bool.or_eq_false_iff, Bool.or_eq_false_iff,
    Bool.or_eq_false_iff] at this
  exact this.1.1.2


/-- parseAttrs on an immediate closing angle bracket. -/
theorem parseAttrs_gt (rest : List Char) :
    parseAttrs ('>' :: rest) = ([], ['>'], false, rest) := by
  rw [parseAttrs.eq_def]
  simp

/-- parseAttrs on a single double-quoted href attribute with a
reserved-free value. -/
theorem parseAttrs_href (u rest : List Char) (h : ∀ c ∈ u, safeChar c = true) :
    parseAttrs (' ' :: ('h' :: 'r' :: 'e' :: 'f' :: '=' :: '"' :: (u ++ '"' :: '>' :: rest)))
      = ([("href", String.mk u)],
         ' ' :: ('h' :: 'r' :: 'e' :: 'f' :: '=' :: '"' :: (u ++ '"' :: '>' :: [])),
         false, rest) := by
  have hq := takeUntilChar_append '"' u ('>' :: rest) (safe_no_quote u h)
  simp +arith +decide [parseAttrs.eq_def, takeWhileName, isNameChar, hq]

/-- The remainder of takeUntilChar is a suffix. -/
theorem takeUntilChar_len (stop : Char) (cs : List Char) :
    (takeUntilChar stop cs).2.length ≤ cs.length := by
  induction cs with
  | nil => simp [takeUntilChar]
  | cons c rest ih =>
    rw [takeUntilChar]
    split_ifs <;> simp <;> omega

/-- The remainder of takeWhileName is a suffix. -/
theorem takeWhileName_len (cs : List Char) :
    (takeWhileName cs).2.length ≤ cs.length := by
  induction cs with
  | nil => simp [takeWhileName]
  | cons c rest ih =>
    rw [takeWhileName]
    split_ifs <;> simp <;> omega


/-- parseNodes stops (without consuming) at a closing tag. -/
theorem parseNodes_stop (r : List Char) :
    parseNodes ('<' :: '/' :: r) = ([], [], '<' :: '/' :: r) := by
  rw [parseNodes.eq_def]
  simp

/-- parseNodes on the empty input. -/
theorem parseNodes_nil : parseNodes ([] : List Char) = ([], [], []) := by
  rw [parseNodes.eq_def]

/-- parseNodes scans a nonempty reserved-free text run up to the next
angle bracket. -/
theorem parseNodes_text (t r : List Char) (ht : t ≠ [])
    (hsafe : ∀ c ∈ t, safeChar c = true) :
    parseNodes (t ++ '<' :: r)
      = (HNode.text (String.mk t) :: (parseNodes ('<' :: r)).1,
         t ++ (parseNodes ('<' :: r)).2.1, (parseNodes ('<' :: r)).2.2) := by
  obtain ⟨c, t', rfl⟩ : ∃ c t', t = c :: t' := by
    cases t with
    | nil => exact absurd rfl ht
    | cons c t' => exact ⟨c, t', rfl⟩
  have htk := takeUntilChar_append '<' (c :: t') r (safe_no_lt _ hsafe)
  have hc : (c == '<') = false := safe_no_lt _ hsafe c (by simp)
  rw [List.cons_append] at htk
  rw [List.cons_append, parseNodes.eq_def]
  simp +arith +decide [hc, htk]

/-- parseNodes on a non-void element: scan the name, the attributes, the
children up to the closing tag, consume the closing tag, and continue. -/
theorem parseNodes_elem (nm rest0 : List Char) (attrs : List (String × String))
    (rawAttrs afterGt : List Char) (childNodes : List HNode)
    (childRaw afterCh closeRaw afterClose : List Char)
    (hnm : nm ≠ []) (hname : ∀ c ∈ nm, isNameChar c = true)
    (hrest0 : ∀ c ∈ rest0.head?, isNameChar c = false)
    (hattr : parseAttrs rest0 = (attrs, rawAttrs, false, afterGt))
    (hnv : voidTags.contains (toLowerStr (String.mk nm)) = false)
    (hbody : parseNodes afterGt = (childNodes, childRaw, afterCh))
    (hclose : consumeCloseTag afterCh = (closeRaw, afterClose))
    (hlen1 : afterGt.length < ('<' :: (nm ++ rest0)).length)
    (hlen2 : afterClose.length < ('<' :: (nm ++ rest0)).length) :
    parseNodes ('<' :: (nm ++ rest0))
      = (HNode.elem (toLowerStr (String.mk nm)) attrs
           (String.mk ('<' :: (nm ++ rawAttrs) ++ childRaw ++ closeRaw)) childNodes
          :: (parseNodes afterClose).1,
         ('<' :: (nm ++ rawAttrs) ++ childRaw ++ closeRaw) ++ (parseNodes afterClose).2.1,
         (parseNodes afterClose).2.2) := by
  obtain ⟨n0, nm', rfl⟩ : ∃ n0 nm', nm = n0 :: nm' := by
    cases nm with
    | nil => exact absurd rfl hnm
    | cons n0 nm' => exact ⟨n0, nm', rfl⟩
  have htw := takeWhileName_append (n0 :: nm') rest0 hname hrest0
  have hn0 : isNameChar n0 = true := hname n0 (by simp)
  have hslash : (n0 == '/') = false := by
    rcases h : n0 == '/' with _ | _
    · rfl
    · rw [beq_iff_eq] at h
      subst h
      simp [isNameChar] at hn0
  rw [List.cons_append] at htw
  rw [List.cons_append, parseNodes.eq_def]
  have hnv2 : toLowerStr (String.mk (n0 :: nm')) ∉ voidTags := by simpa using hnv
  simp +arith +decide [hslash, hn0, htw, hattr, hbody, hclose] at hlen1 hlen2 ⊢
  simp [hnv2, hlen1, hlen2]

/-- parseNodes on a void element: no children, no closing tag. -/
theorem parseNodes_void (nm rest0 : List Char) (attrs : List (String × String))
    (rawAttrs afterGt : List Char)
    (hnm : nm ≠ []) (hname : ∀ c ∈ nm, isNameChar c = true)
    (hrest0 : ∀ c ∈ rest0.head?, isNameChar c = false)
    (hattr : parseAttrs rest0 = (attrs, rawAttrs, false, afterGt))
    (hv : voidTags.contains (toLowerStr (String.mk nm)) = true)
    (hlen : afterGt.length < ('<' :: (nm ++ rest0)).length) :
    parseNodes ('<' :: (nm ++ rest0))
      = (HNode.elem (toLowerStr (String.mk nm)) attrs
           (String.mk ('<' :: (nm ++ rawAttrs))) [] :: (parseNodes afterGt).1,
         ('<' :: (nm ++ rawAttrs)) ++ (parseNodes afterGt).2.1,
         (parseNodes afterGt).2.2) := by
  obtain ⟨n0, nm', rfl⟩ : ∃ n0 nm', nm = n0 :: nm' := by
    cases nm with
    | nil => exact absurd rfl hnm
    | cons n0 nm' => exact ⟨n0, nm', rfl⟩
  have htw := takeWhileName_append (n0 :: nm') rest0 hname hrest0
  have hn0 : isNameChar n0 = true := hname n0 (by simp)
  have hslash : (n0 == '/') = false := by
    rcases h : n0 == '/' with _ | _
    · rfl
    · rw [beq_iff_eq] at h
      subst h
      simp [isNameChar] at hn0
  rw [List.cons_append] at htw
  rw [List.cons_append, parseNodes.eq_def]
  have hv2 : toLowerStr (String.mk (n0 :: nm')) ∈ voidTags := by simpa using hv
  simp +arith +decide [hslash, hn0, htw, hattr] at hlen ⊢
  simp [hv2, hlen]

/-- Pointwise form of safeStr. -/
theorem safeStr_data (t : String) (h : safeStr t = true) :
    ∀ c ∈ t.data, safeChar c = true := by
  simpa [safeStr, List.all_eq_true] using h

/-- A nonempty string has a nonempty character list. -/
theorem data_ne_nil (t : String) (h : t ≠ "") : t.data ≠ [] := by
  intro hc
  exact h (String.ext (by simp [hc]))

/-- Rebuilding a string from its characters is the identity. -/
theorem mk_data (t : String) : String.mk t.data = t := rfl

/-- Rendering of a bare text node. -/
theorem renderText0 (t : String) (h : safeStr t = true) :
    renderInlineNode (makeTextNode t 0) = t := by
  simp +decide [renderInlineNode, makeTextNode, orEmpty, FORMAT_BOLD, FORMAT_ITALIC,
    escapeHtml_safe t h]

/-- Rendering of a bold text node. -/
theorem renderText1 (t : String) (h : safeStr t = true) :
    renderInlineNode (makeTextNode t 1) = "<strong>" ++ t ++ "</strong>" := by
  simp +decide [renderInlineNode, makeTextNode, orEmpty, FORMAT_BOLD, FORMAT_ITALIC,
    escapeHtml_safe t h]

/-- Rendering of an italic text node. -/
theorem renderText2 (t : String) (h : safeStr t = true) :
    renderInlineNode (makeTextNode t 2) = "<em>" ++ t ++ "</em>" := by
  simp +decide [renderInlineNode, makeTextNode, orEmpty, FORMAT_BOLD, FORMAT_ITALIC,
    escapeHtml_safe t h]

/-- Rendering of a bold italic text node. -/
theorem renderText3 (t : String) (h : safeStr t = true) :
    renderInlineNode (makeTextNode t 3)
      = "<em>" ++ ("<strong>" ++ t ++ "</strong>") ++ "</em>" := by
  simp +decide [renderInlineNode, makeTextNode, orEmpty, FORMAT_BOLD, FORMAT_ITALIC,
    escapeHtml_safe t h]

/-- Rendering of a linebreak node. -/
theorem renderBr : renderInlineNode makeLinebreakNode = "<br>" := by
  simp +decide [renderInlineNode, makeLinebreakNode]

/-- Rendering of a link node. -/
theorem renderLink (u : String) (cs : List DNode) (h : safeStr u = true) :
    renderInlineNode (makeLinkNode u cs none)
      = "<a href=\"" ++ u ++ "\">" ++ renderInlineList cs ++ "</a>" := by
  simp +decide [renderInlineNode, makeLinkNode, orEmpty, escapeHtml_safe u h]
  apply String.ext
  simp [String.data_append, String.singleton]

/-- A canonical inline node that is not bare text renders starting with an
angle bracket. -/
theorem renderStartsLt (allow : Bool) (n : DNode) (h : TCInline allow n)
    (hp : isPlain0 n = false) :
    ∃ s, (renderInlineNode n).data = '<' :: s := by
  cases h with
  | text allow t f hsafe hne hf =>
    interval_cases f
    · simp +decide [isPlain0, makeTextNode, DNode.typ, DNode.formatVal] at hp
    · rw [renderText1 t hsafe]
      exact ⟨_, rfl⟩
    · rw [renderText2 t hsafe]
      exact ⟨_, rfl⟩
    · rw [renderText3 t hsafe]
      exact ⟨_, rfl⟩
  | br allow =>
    rw [renderBr]
    exact ⟨_, rfl⟩
  | link u cs hu hne hseq =>
    rw [renderLink u cs hu]
    exact ⟨_, rfl⟩

theorem dataStrongO : ("<strong>" : String).data = ['<', 's', 't', 'r', 'o', 'n', 'g', '>'] := rfl

theorem dataStrongC : ("</strong>" : String).data = ['<', '/', 's', 't', 'r', 'o', 'n', 'g', '>'] := rfl

theorem dataEmO : ("<em>" : String).data = ['<', 'e', 'm', '>'] := rfl

theorem dataEmC : ("</em>" : String).data = ['<', '/', 'e', 'm', '>'] := rfl

theorem dataBrO : ("<br>" : String).data = ['<', 'b', 'r', '>'] := rfl

theorem dataAO : ("<a href=\"" : String).data = ['<', 'a', ' ', 'h', 'r', 'e', 'f', '=', '"'] := rfl

theorem dataAC : ("</a>" : String).data = ['<', '/', 'a', '>'] := rfl

theorem dataQuoteGt : ("\">" : String).data = ['"', '>'] := rfl

mutual

/-- Parsing the rendering of one canonical inline node prepends its parse
forest and continues with the rest of the input; a bare text node needs
the continuation to open with an angle bracket. -/
theorem rpInline {allow : Bool} {n : DNode} (h : TCInline allow n) (k : List Char)
    (hk : isPlain0 n = true → ∃ k2, k = '<' :: k2) :
    parseNodes ((renderInlineNode n).data ++ k)
      = (forestOfInline n ++ (parseNodes k).1,
         (renderInlineNode n).data ++ (parseNodes k).2.1,
         (parseNodes k).2.2) := by
  cases h with
  | text allow t f hsafe hne hf =>
    interval_cases f
    · obtain ⟨k2, rfl⟩ := hk (by simp +decide [isPlain0, makeTextNode, DNode.typ,
        DNode.formatVal])
      rw [renderText0 t hsafe]
      have hpt := parseNodes_text t.data k2 (data_ne_nil t hne) (safeStr_data t hsafe)
      simp [hpt, forestOfInline, makeTextNode, orEmpty, escapeHtml_safe t hsafe,
        mk_data, hne]
    · rw [renderText1 t hsafe]
      have hshape : ("<strong>" ++ t ++ "</strong>").data ++ k
          = '<' :: (['s', 't', 'r', 'o', 'n', 'g']
            ++ ('>' :: (t.data ++ ('<' :: '/' :: (['s', 't', 'r', 'o', 'n', 'g', '>'] ++ k))))) := by
        simp [String.data_append, dataStrongO, dataStrongC]
      rw [hshape]
      have hbody := parseNodes_text t.data ('/' :: (['s', 't', 'r', 'o', 'n', 'g', '>'] ++ k))
        (data_ne_nil t hne) (safeStr_data t hsafe)
      rw [parseNodes_stop] at hbody
      have hclose : consumeCloseTag ('<' :: '/' :: (['s', 't', 'r', 'o', 'n', 'g', '>'] ++ k))
          = (['<', '/', 's', 't', 'r', 'o', 'n', 'g', '>'], k) := by
        simp +decide [consumeCloseTag, takeWhileName, isNameChar]
      rw [parseNodes_elem ['s', 't', 'r', 'o', 'n', 'g']
        ('>' :: (t.data ++ ('<' :: '/' :: (['s', 't', 'r', 'o', 'n', 'g', '>'] ++ k))))
        [] ['>'] _ _ _ _ _ _ (by decide) (by decide) (by simp [isNameChar])
        (parseAttrs_gt _) (by decide)
        (by rw [hbody])
        hclose (by simp +arith) (by simp +arith)]
      simp [forestOfInline, makeTextNode, orEmpty, escapeHtml_safe t hsafe, hne,
        FORMAT_BOLD, FORMAT_ITALIC]
      repeat' apply And.intro
      all_goals first
        | rfl
        | decide
        | exact (mk_data _).symm
        | (apply String.ext
           simp [String.data_append, dataStrongO, dataStrongC, dataEmO, dataEmC,
             dataAO, dataAC, dataQuoteGt])
        | simp [String.data_append, dataStrongO, dataStrongC, dataEmO, dataEmC,
             dataAO, dataAC, dataQuoteGt]
    · rw [renderText2 t hsafe]
      have hshape : ("<em>" ++ t ++ "</em>").data ++ k
          = '<' :: (['e', 'm']
            ++ ('>' :: (t.data ++ ('<' :: '/' :: (['e', 'm', '>'] ++ k))))) := by
        simp [String.data_append, dataEmO, dataEmC]
      rw [hshape]
      have hbody := parseNodes_text t.data ('/' :: (['e', 'm', '>'] ++ k))
        (data_ne_nil t hne) (safeStr_data t hsafe)
      rw [parseNodes_stop] at hbody
      have hclose : consumeCloseTag ('<' :: '/' :: (['e', 'm', '>'] ++ k))
          = (['<', '/', 'e', 'm', '>'], k) := by
        simp +decide [consumeCloseTag, takeWhileName, isNameChar]
      rw [parseNodes_elem ['e', 'm']
        ('>' :: (t.data ++ ('<' :: '/' :: (['e', 'm', '>'] ++ k))))
        [] ['>'] _ _ _ _ _ _ (by decide) (by decide) (by simp [isNameChar])
        (parseAttrs_gt _) (by decide)
        (by rw [hbody])
        hclose (by simp +arith) (by simp +arith)]
      simp [forestOfInline, makeTextNode, orEmpty, escapeHtml_safe t hsafe, hne,
        FORMAT_BOLD, FORMAT_ITALIC]
      repeat' apply And.intro
      all_goals first
        | rfl
        | decide
        | exact (mk_data _).symm
        | (apply String.ext
           simp [String.data_append, dataStrongO, dataStrongC, dataEmO, dataEmC,
             dataAO, dataAC, dataQuoteGt])
        | simp [String.data_append, dataStrongO, dataStrongC, dataEmO, dataEmC,
             dataAO, dataAC, dataQuoteGt]
    · rw [renderText3 t hsafe]
      have hshapeInner : ("<strong>" ++ t ++ "</strong>").data
          ++ ('<' :: '/' :: (['e', 'm', '>'] ++ k))
          = '<' :: (['s', 't', 'r', 'o', 'n', 'g']
            ++ ('>' :: (t.data ++ ('<' :: '/' :: (['s', 't', 'r', 'o', 'n', 'g', '>']
              ++ ('<' :: '/' :: (['e', 'm', '>'] ++ k))))))) := by
        simp [String.data_append, dataStrongO, dataStrongC]
      have hbody := parseNodes_text t.data
        ('/' :: (['s', 't', 'r', 'o', 'n', 'g', '>'] ++ ('<' :: '/' :: (['e', 'm', '>'] ++ k))))
        (data_ne_nil t hne) (safeStr_data t hsafe)
      rw [parseNodes_stop] at hbody
      have hcloseS : consumeCloseTag ('<' :: '/' :: (['s', 't', 'r', 'o', 'n', 'g', '>']
          ++ ('<' :: '/' :: (['e', 'm', '>'] ++ k))))
          = (['<', '/', 's', 't', 'r', 'o', 'n', 'g', '>'], '<' :: '/' :: (['e', 'm', '>'] ++ k)) := by
        simp +decide [consumeCloseTag, takeWhileName, isNameChar]
      have hinner := parseNodes_elem ['s', 't', 'r', 'o', 'n', 'g']
        ('>' :: (t.data ++ ('<' :: '/' :: (['s', 't', 'r', 'o', 'n', 'g', '>']
          ++ ('<' :: '/' :: (['e', 'm', '>'] ++ k))))))
        [] ['>'] _ _ _ _ _ _ (by decide) (by decide) (by simp [isNameChar])
        (parseAttrs_gt _) (by decide)
        (by rw [hbody])
        hcloseS (by simp +arith) (by simp +arith)
      rw [parseNodes_stop] at hinner
      have hshape : ("<em>" ++ ("<strong>" ++ t ++ "</strong>") ++ "</em>").data ++ k
          = '<' :: (['e', 'm']
            ++ ('>' :: ('<' :: (['s', 't', 'r', 'o', 'n', 'g']
              ++ ('>' :: (t.data ++ ('<' :: '/' :: (['s', 't', 'r', 'o', 'n', 'g', '>']
                ++ ('<' :: '/' :: (['e', 'm', '>'] ++ k)))))))))) := by
        simp [String.data_append, dataStrongO, dataStrongC, dataEmO, dataEmC]
      rw [hshape]
      have hcloseE : consumeCloseTag ('<' :: '/' :: (['e', 'm', '>'] ++ k))
          = (['<', '/', 'e', 'm', '>'], k) := by
        simp +decide [consumeCloseTag, takeWhileName, isNameChar]
      rw [parseNodes_elem ['e', 'm']
        ('>' :: ('<' :: (['s', 't', 'r', 'o', 'n', 'g']
          ++ ('>' :: (t.data ++ ('<' :: '/' :: (['s', 't', 'r', 'o', 'n', 'g', '>']
            ++ ('<' :: '/' :: (['e', 'm', '>'] ++ k)))))))))
        [] ['>'] _ _ _ _ _ _ (by decide) (by decide) (by simp [isNameChar])
        (parseAttrs_gt _) (by decide)
        (by rw [hinner])
        hcloseE (by simp +arith) (by simp +arith)]
      simp [forestOfInline, makeTextNode, orEmpty, escapeHtml_safe t hsafe, hne,
        FORMAT_BOLD, FORMAT_ITALIC]
      repeat' apply And.intro
      all_goals first
        | rfl
        | decide
        | exact (mk_data _).symm
        | (apply String.ext
           simp [String.data_append, dataStrongO, dataStrongC, dataEmO, dataEmC,
             dataAO, dataAC, dataQuoteGt])
        | simp [String.data_append, dataStrongO, dataStrongC, dataEmO, dataEmC,
             dataAO, dataAC, dataQuoteGt]
  | br allow =>
    rw [renderBr]
    have hshape : ("<br>" : String).data ++ k = '<' :: (['b', 'r'] ++ ('>' :: k)) := by
      simp [dataBrO]
    rw [hshape]
    rw [parseNodes_void ['b', 'r'] ('>' :: k) [] ['>'] k (by decide) (by decide)
      (by simp [isNameChar]) (parseAttrs_gt k) (by decide) (by simp +arith)]
    simp +decide [forestOfInline, makeLinebreakNode, dataBrO]
  | link u cs hu hne hseq =>
    rw [renderLink u cs hu]
    have hshape : ("<a href=\"" ++ u ++ "\">" ++ renderInlineList cs ++ "</a>").data ++ k
        = '<' :: (['a'] ++ (' ' :: ('h' :: 'r' :: 'e' :: 'f' :: '=' :: '"'
          :: (u.data ++ '"' :: '>'
            :: ((renderInlineList cs).data ++ ('<' :: '/' :: (['a', '>'] ++ k))))))) := by
      simp [String.data_append, dataAO, dataAC, dataQuoteGt]
    rw [hshape]
    have hattr := parseAttrs_href u.data
      ((renderInlineList cs).data ++ ('<' :: '/' :: (['a', '>'] ++ k)))
      (safeStr_data u hu)
    have hbody := rpSeq hseq (['a', '>'] ++ k)
    have hclose : consumeCloseTag ('<' :: '/' :: (['a', '>'] ++ k))
        = (['<', '/', 'a', '>'], k) := by
      simp +decide [consumeCloseTag, takeWhileName, isNameChar]
    rw [parseNodes_elem ['a']
      (' ' :: ('h' :: 'r' :: 'e' :: 'f' :: '=' :: '"' :: (u.data ++ '"' :: '>'
        :: ((renderInlineList cs).data ++ ('<' :: '/' :: (['a', '>'] ++ k))))))
      [("href", String.mk u.data)]
      (' ' :: ('h' :: 'r' :: 'e' :: 'f' :: '=' :: '"' :: (u.data ++ '"' :: '>' :: []))) _
      _ _ _ _ _ (by decide) (by decide) (by simp [isNameChar])
      hattr (by decide)
      (by rw [hbody])
      hclose (by simp +arith) (by simp +arith)]
    simp [forestOfInline, makeLinkNode, orEmpty, escapeHtml_safe u hu, mk_data]
    repeat' apply And.intro
    all_goals first
      | rfl
      | decide
      | exact (mk_data _).symm
      | (apply String.ext
         simp [String.data_append, dataStrongO, dataStrongC, dataEmO, dataEmC,
           dataAO, dataAC, dataQuoteGt])
      | simp [String.data_append, dataStrongO, dataStrongC, dataEmO, dataEmC,
           dataAO, dataAC, dataQuoteGt]

/-- Parsing the rendering of a canonical inline sequence followed by a
closing tag yields its parse forest and stops at the closing tag. -/
theorem rpSeq {allow : Bool} {cs : List DNode} (h : TCSeq allow cs) (k2 : List Char) :
    parseNodes ((renderInlineList cs).data ++ '<' :: '/' :: k2)
      = (forestOfInlineList cs, (renderInlineList cs).data, '<' :: '/' :: k2) := by
  cases h with
  | nil allow =>
    simp [renderInlineList, forestOfInlineList, parseNodes_stop]
  | cons allow n ns hn hsep hns =>
    have hrender : (renderInlineList (n :: ns)).data
        = (renderInlineNode n).data ++ (renderInlineList ns).data := by
      rw [renderInlineList]
      simp [String.data_append]
    have hkn : isPlain0 n = true → ∃ km, (renderInlineList ns).data ++ '<' :: '/' :: k2
        = '<' :: km := by
      intro hp
      rw [hp] at hsep
      simp only [Bool.true_and] at hsep
      cases hns with
      | nil => exact ⟨'/' :: k2, by simp [renderInlineList]⟩
      | cons allow m ms hm hsep2 hms =>
        have hp2 : isPlain0 m = false := by
          simpa [headPlain0] using hsep
        obtain ⟨s, hs⟩ := renderStartsLt allow m hm hp2
        refine ⟨s ++ ((renderInlineList ms).data ++ '<' :: '/' :: k2), ?_⟩
        rw [renderInlineList]
        simp [String.data_append, hs]
    have hstep := rpInline hn ((renderInlineList ns).data ++ '<' :: '/' :: k2) hkn
    have hrest := rpSeq hns k2
    rw [hrender, List.append_assoc, hstep, hrest]
    simp [forestOfInlineList]

end

theorem dataLt : ("<" : String).data = ['<'] := rfl

theorem dataGt : (">" : String).data = ['>'] := rfl

theorem dataLtSlash : ("</" : String).data = ['<', '/'] := rfl

theorem dataPO : ("<p>" : String).data = ['<', 'p', '>'] := rfl

theorem dataPC : ("</p>" : String).data = ['<', '/', 'p', '>'] := rfl

theorem dataLiO : ("<li>" : String).data = ['<', 'l', 'i', '>'] := rfl

theorem dataLiC : ("</li>" : String).data = ['<', '/', 'l', 'i', '>'] := rfl

theorem dataUlO : ("<ul>" : String).data = ['<', 'u', 'l', '>'] := rfl

theorem dataUlC : ("</ul>" : String).data = ['<', '/', 'u', 'l', '>'] := rfl

theorem dataOlO : ("<ol>" : String).data = ['<', 'o', 'l', '>'] := rfl

theorem dataOlC : ("</ol>" : String).data = ['<', '/', 'o', 'l', '>'] := rfl

theorem dataBqO : ("<blockquote>" : String).data
    = ['<', 'b', 'l', 'o', 'c', 'k', 'q', 'u', 'o', 't', 'e', '>'] := rfl

theorem dataBqC : ("</blockquote>" : String).data
    = ['<', '/', 'b', 'l', 'o', 'c', 'k', 'q', 'u', 'o', 't', 'e', '>'] := rfl

/-- Rendering of a heading node with a nonempty tag. -/
theorem renderHeadingEval (tg : String) (cs : List DNode) (htg : (tg == "") = false) :
    renderBlockNode (makeHeadingNode tg cs)
      = "<" ++ tg ++ ">" ++ renderInlineList cs ++ "</" ++ tg ++ ">" := by
  simp +decide [renderBlockNode, makeHeadingNode, htg]

/-- Rendering of a paragraph node. -/
theorem renderParaEval (cs : List DNode) :
    renderBlockNode (makeParagraphNode cs) = "<p>" ++ renderInlineList cs ++ "</p>" := by
  simp +decide [renderBlockNode, makeParagraphNode]

/-- Rendering of a quote node. -/
theorem renderQuoteEval (cs : List DNode) :
    renderBlockNode (makeQuoteNode cs)
      = "<blockquote>" ++ renderInlineList cs ++ "</blockquote>" := by
  simp +decide [renderBlockNode, makeQuoteNode]

/-- Rendering of a list item node. -/
theorem renderItemEval (cs : List DNode) (v : Nat) :
    renderBlockNode (makeListItemNode cs v) = "<li>" ++ renderInlineList cs ++ "</li>" := by
  simp +decide [renderBlockNode, makeListItemNode]

/-- Rendering of a bulleted list node. -/
theorem renderUlEval (items : List DNode) :
    renderBlockNode (makeListNode "bullet" "ul" items)
      = "<ul>" ++ renderBlockList items ++ "</ul>" := by
  simp +decide [renderBlockNode, makeListNode]
  apply String.ext
  simp [String.data_append, dataLtSlash, dataGt, dataUlC,
    show ("ul" : String).data = ['u', 'l'] from rfl]

/-- Rendering of a numbered list node. -/
theorem renderOlEval (items : List DNode) :
    renderBlockNode (makeListNode "number" "ol" items)
      = "<ol>" ++ renderBlockList items ++ "</ol>" := by
  simp +decide [renderBlockNode, makeListNode]
  apply String.ext
  simp [String.data_append, dataLtSlash, dataGt, dataOlC,
    show ("ol" : String).data = ['o', 'l'] from rfl]

/-- Auxiliary accumulator lemma for String.intercalate. -/
theorem intercalateGo_acc (s : String) (l : List String) :
    ∀ (a b : String), String.intercalate.go (a ++ b) s l = a ++ String.intercalate.go b s l := by
  induction l with
  | nil =>
    intro a b
    simp [String.intercalate.go]
  | cons x xs ih =>
    intro a b
    rw [String.intercalate.go, String.intercalate.go]
    have h : a ++ b ++ s ++ x = a ++ (b ++ s ++ x) := by
      simp [String.append_assoc]
    rw [h, ih]

/-- intercalate on a singleton. -/
theorem intercalate_single (s a : String) : String.intercalate s [a] = a := rfl

/-- intercalate unfolding on two or more pieces. -/
theorem intercalate_cons2 (s a b : String) (l : List String) :
    String.intercalate s (a :: b :: l) = a ++ s ++ String.intercalate s (b :: l) := by
  show String.intercalate.go a s (b :: l) = a ++ s ++ String.intercalate.go b s l
  rw [String.intercalate.go, intercalateGo_acc s l (a ++ s) b]

/-- Parsing the rendering of a single plain text child (possibly empty)
followed by a closing tag. -/
theorem rpPlainText (t : String) (hsafe : safeStr t = true) (k2 : List Char) :
    parseNodes ((renderInlineList [makeTextNode t 0]).data ++ '<' :: '/' :: k2)
      = (forestOfInlineList [makeTextNode t 0],
         (renderInlineList [makeTextNode t 0]).data, '<' :: '/' :: k2) := by
  by_cases ht : t = ""
  · subst ht
    have h0 : renderInlineList [makeTextNode "" 0] = "" := by
      rw [renderInlineList, renderInlineList, renderText0 "" (by decide)]
      simp [String.append_empty]
    have h1 : forestOfInlineList [makeTextNode "" 0] = [] := by
      simp +decide [forestOfInlineList, forestOfInline, makeTextNode, orEmpty,
        escapeHtml_safe "" (by decide)]
    simp [h0, h1, parseNodes_stop, show ("" : String).data = [] from rfl]
  · have hseq : TCSeq true [makeTextNode t 0] :=
      .cons _ _ _ (.text _ t 0 hsafe ht (by decide)) (by simp [headPlain0]) (.nil _)
    exact rpSeq hseq k2

/-- Parsing the rendering of canonical paragraph-like content followed by a
closing tag. -/
theorem rpContent {cs : List DNode} (h : TCContent cs) (k2 : List Char) :
    parseNodes ((renderInlineList cs).data ++ '<' :: '/' :: k2)
      = (forestOfInlineList cs, (renderInlineList cs).data, '<' :: '/' :: k2) := by
  rcases h with rfl | ⟨hne, hseq⟩
  · exact rpPlainText "" (by decide) k2
  · exact rpSeq hseq k2

/-- Parsing the rendering of canonical list items followed by a closing tag
yields one li element per item. -/
theorem rpItems {k : Nat} {items : List DNode} (h : TCItems k items) (k2 : List Char) :
    parseNodes ((renderBlockList items).data ++ '<' :: '/' :: k2)
      = (forestOfBlockList items, (renderBlockList items).data, '<' :: '/' :: k2) := by
  induction h generalizing k2 with
  | nil k =>
    simp [renderBlockList, forestOfBlockList, parseNodes_stop]
  | item k t rest hsafe hrest ih =>
    rw [renderBlockList]
    have hrender : (renderBlockNode (makeListItemNode [makeTextNode t 0] k)
          ++ renderBlockList rest).data ++ '<' :: '/' :: k2
        = '<' :: (['l', 'i'] ++ ('>' :: ((renderInlineList [makeTextNode t 0]).data
            ++ '<' :: '/' :: (['l', 'i', '>']
              ++ ((renderBlockList rest).data ++ '<' :: '/' :: k2))))) := by
      rw [renderItemEval]
      simp [String.data_append, dataLiO, dataLiC]
    rw [hrender]
    have hbody := rpPlainText t hsafe
      (['l', 'i', '>'] ++ ((renderBlockList rest).data ++ '<' :: '/' :: k2))
    have hclose : consumeCloseTag ('<' :: '/' :: (['l', 'i', '>']
          ++ ((renderBlockList rest).data ++ '<' :: '/' :: k2)))
        = (['<', '/', 'l', 'i', '>'], (renderBlockList rest).data ++ '<' :: '/' :: k2) := by
      simp +decide [consumeCloseTag, takeWhileName, isNameChar]
    rw [parseNodes_elem ['l', 'i']
      ('>' :: ((renderInlineList [makeTextNode t 0]).data
        ++ '<' :: '/' :: (['l', 'i', '>'] ++ ((renderBlockList rest).data ++ '<' :: '/' :: k2))))
      [] ['>'] _ _ _ _ _ _ (by decide) (by decide) (by simp [isNameChar])
      (parseAttrs_gt _) (by decide)
      (by rw [hbody])
      hclose (by simp +arith) (by simp +arith)]
    rw [ih k2]
    simp [forestOfBlockList]
    repeat' apply And.intro
    case item.right =>
      show '<' :: 'l' :: 'i' :: '>' :: ((renderInlineList [makeTextNode t 0]).data
          ++ '<' :: '/' :: 'l' :: 'i' :: '>' :: (renderBlockList rest).data)
        = (renderBlockNode (makeListItemNode [makeTextNode t 0] k)).data
            ++ (renderBlockList rest).data
      rw [renderItemEval]
      simp [String.data_append, dataLiO, dataLiC]
    all_goals first
      | rfl
      | decide
      | exact (mk_data _).symm
      | (simp +decide [forestOfBlock, makeListItemNode])
      | simp [String.data_append, dataLiO, dataLiC]

/-- consumeCloseTag eats a well-formed closing tag. -/
theorem consumeCloseTag_name (nm k : List Char) (h : ∀ c ∈ nm, isNameChar c = true) :
    consumeCloseTag ('<' :: '/' :: (nm ++ '>' :: k)) = ('<' :: '/' :: (nm ++ ['>']), k) := by
  have ht := takeWhileName_append nm ('>' :: k) h (by intro c hc; simp at hc; subst hc; decide)
  simp [consumeCloseTag, ht]

/-- Parse tree of a rendered heading. -/
theorem forestOfHeading (tg : String) (cs : List DNode) (htg : (tg == "") = false) :
    forestOfBlock (makeHeadingNode tg cs)
      = HNode.elem tg [] (renderBlockNode (makeHeadingNode tg cs)) (forestOfInlineList cs) := by
  simp +decide [forestOfBlock, makeHeadingNode, htg]

/-- Parse tree of a rendered paragraph. -/
theorem forestOfPara (cs : List DNode) :
    forestOfBlock (makeParagraphNode cs)
      = HNode.elem "p" [] (renderBlockNode (makeParagraphNode cs)) (forestOfInlineList cs) := by
  simp +decide [forestOfBlock, makeParagraphNode]

/-- Parse tree of a rendered quote. -/
theorem forestOfQuote (cs : List DNode) :
    forestOfBlock (makeQuoteNode cs)
      = HNode.elem "blockquote" [] (renderBlockNode (makeQuoteNode cs)) (forestOfInlineList cs) := by
  simp +decide [forestOfBlock, makeQuoteNode]

/-- Parse tree of a rendered bulleted list. -/
theorem forestOfUl (items : List DNode) :
    forestOfBlock (makeListNode "bullet" "ul" items)
      = HNode.elem "ul" [] (renderBlockNode (makeListNode "bullet" "ul" items))
          (forestOfBlockList items) := by
  simp +decide [forestOfBlock, makeListNode]

/-- Parse tree of a rendered numbered list. -/
theorem forestOfOl (items : List DNode) :
    forestOfBlock (makeListNode "number" "ol" items)
      = HNode.elem "ol" [] (renderBlockNode (makeListNode "number" "ol" items))
          (forestOfBlockList items) := by
  simp +decide [forestOfBlock, makeListNode]

/-- Generic render-parse step for a block rendered as a single element with
a known body parse. -/
theorem rpGenBlock (nm : List Char) (tg : String) (b : DNode) (T : String) (F : List HNode)
    (k : List Char)
    (hnm : nm ≠ []) (hname : ∀ c ∈ nm, isNameChar c = true)
    (hnv : voidTags.contains (toLowerStr (String.mk nm)) = false)
    (hlower : toLowerStr (String.mk nm) = tg)
    (hbody : ∀ k2 : List Char,
      parseNodes (T.data ++ '<' :: '/' :: k2) = (F, T.data, '<' :: '/' :: k2))
    (hrender : (renderBlockNode b).data
      = '<' :: (nm ++ ['>']) ++ T.data ++ ('<' :: '/' :: (nm ++ ['>'])))
    (hforest : forestOfBlock b = HNode.elem tg [] (renderBlockNode b) F) :
    parseNodes ((renderBlockNode b).data ++ k)
      = (forestOfBlock b :: (parseNodes k).1,
         (renderBlockNode b).data ++ (parseNodes k).2.1, (parseNodes k).2.2) := by
  rw [hforest, hrender]
  have hshape : ('<' :: (nm ++ ['>']) ++ T.data ++ ('<' :: '/' :: (nm ++ ['>']))) ++ k
      = '<' :: (nm ++ '>' :: (T.data ++ '<' :: '/' :: (nm ++ '>' :: k))) := by
    simp [List.append_assoc]
  rw [hshape]
  have hb := hbody (nm ++ '>' :: k)
  have hclose := consumeCloseTag_name nm k hname
  rw [parseNodes_elem nm ('>' :: (T.data ++ '<' :: '/' :: (nm ++ '>' :: k)))
    [] ['>'] _ _ _ _ _ _ hnm hname (by intro c hc; simp at hc; subst hc; decide)
    (parseAttrs_gt _) hnv
    (by rw [hb])
    hclose (by simp +arith) (by simp +arith)]
  have hstr : String.mk ('<' :: (nm ++ ['>']) ++ T.data ++ ('<' :: '/' :: (nm ++ ['>'])))
      = renderBlockNode b := by
    apply String.ext
    rw [mk_data, hrender]
  rw [hlower, hstr]

/-- A canonical block renders starting with an angle bracket. -/
theorem renderBlockStartsLt {b : DNode} (h : TCBlock b) :
    ∃ s, (renderBlockNode b).data = '<' :: s := by
  cases h with
  | heading tag cs htag hcontent =>
    have htg : (tag == "") = false := by
      rcases (by simpa using htag : tag = "h1" ∨ tag = "h2" ∨ tag = "h3" ∨ tag = "h4"
        ∨ tag = "h5" ∨ tag = "h6") with rfl | rfl | rfl | rfl | rfl | rfl <;> decide
    rw [renderHeadingEval tag cs htg]
    exact ⟨tag.data ++ '>' :: ((renderInlineList cs).data ++ '<' :: '/' :: (tag.data ++ ['>'])),
      by simp [String.data_append, dataLt, dataGt, dataLtSlash]⟩
  | para cs hcontent =>
    rw [renderParaEval]
    exact ⟨'p' :: '>' :: ((renderInlineList cs).data ++ ['<', '/', 'p', '>']),
      by simp [String.data_append, dataPO, dataPC]⟩
  | quote cs hcontent =>
    rw [renderQuoteEval]
    exact ⟨'b' :: 'l' :: 'o' :: 'c' :: 'k' :: 'q' :: 'u' :: 'o' :: 't' :: 'e' :: '>'
        :: ((renderInlineList cs).data
          ++ ['<', '/', 'b', 'l', 'o', 'c', 'k', 'q', 'u', 'o', 't', 'e', '>']),
      by simp [String.data_append, dataBqO, dataBqC]⟩
  | ulist items hne hitems =>
    rw [renderUlEval]
    exact ⟨'u' :: 'l' :: '>' :: ((renderBlockList items).data ++ ['<', '/', 'u', 'l', '>']),
      by simp [String.data_append, dataUlO, dataUlC]⟩
  | olist items hne hitems =>
    rw [renderOlEval]
    exact ⟨'o' :: 'l' :: '>' :: ((renderBlockList items).data ++ ['<', '/', 'o', 'l', '>']),
      by simp [String.data_append, dataOlO, dataOlC]⟩

/-- Parsing the rendering of one canonical block prepends its parse tree
and continues with the rest of the input. -/
theorem rpBlock {b : DNode} (h : TCBlock b) (k : List Char) :
    parseNodes ((renderBlockNode b).data ++ k)
      = (forestOfBlock b :: (parseNodes k).1,
         (renderBlockNode b).data ++ (parseNodes k).2.1, (parseNodes k).2.2) := by
  cases h with
  | heading tag cs htag hcontent =>
    rcases (by simpa using htag : tag = "h1" ∨ tag = "h2" ∨ tag = "h3" ∨ tag = "h4"
        ∨ tag = "h5" ∨ tag = "h6") with rfl | rfl | rfl | rfl | rfl | rfl
    · exact rpGenBlock ['h', '1'] "h1" (makeHeadingNode "h1" cs) (renderInlineList cs) (forestOfInlineList cs) k
        (by decide) (by decide) (by decide) (by decide) (rpContent hcontent)
        (by rw [renderHeadingEval "h1" cs (by decide)]
            simp [String.data_append, dataLt, dataGt, dataLtSlash,
              show ("h1" : String).data = ['h', '1'] from rfl])
        (forestOfHeading "h1" cs (by decide))
    · exact rpGenBlock ['h', '2'] "h2" (makeHeadingNode "h2" cs) (renderInlineList cs) (forestOfInlineList cs) k
        (by decide) (by decide) (by decide) (by decide) (rpContent hcontent)
        (by rw [renderHeadingEval "h2" cs (by decide)]
            simp [String.data_append, dataLt, dataGt, dataLtSlash,
              show ("h2" : String).data = ['h', '2'] from rfl])
        (forestOfHeading "h2" cs (by decide))
    · exact rpGenBlock ['h', '3'] "h3" (makeHeadingNode "h3" cs) (renderInlineList cs) (forestOfInlineList cs) k
        (by decide) (by decide) (by decide) (by decide) (rpContent hcontent)
        (by rw [renderHeadingEval "h3" cs (by decide)]
            simp [String.data_append, dataLt, dataGt, dataLtSlash,
              show ("h3" : String).data = ['h', '3'] from rfl])
        (forestOfHeading "h3" cs (by decide))
    · exact rpGenBlock ['h', '4'] "h4" (makeHeadingNode "h4" cs) (renderInlineList cs) (forestOfInlineList cs) k
        (by decide) (by decide) (by decide) (by decide) (rpContent hcontent)
        (by rw [renderHeadingEval "h4" cs (by decide)]
            simp [String.data_append, dataLt, dataGt, dataLtSlash,
              show ("h4" : String).data = ['h', '4'] from rfl])
        (forestOfHeading "h4" cs (by decide))
    · exact rpGenBlock ['h', '5'] "h5" (makeHeadingNode "h5" cs) (renderInlineList cs) (forestOfInlineList cs) k
        (by decide) (by decide) (by decide) (by decide) (rpContent hcontent)
        (by rw [renderHeadingEval "h5" cs (by decide)]
            simp [String.data_append, dataLt, dataGt, dataLtSlash,
              show ("h5" : String).data = ['h', '5'] from rfl])
        (forestOfHeading "h5" cs (by decide))
    · exact rpGenBlock ['h', '6'] "h6" (makeHeadingNode "h6" cs) (renderInlineList cs) (forestOfInlineList cs) k
        (by decide) (by decide) (by decide) (by decide) (rpContent hcontent)
        (by rw [renderHeadingEval "h6" cs (by decide)]
            simp [String.data_append, dataLt, dataGt, dataLtSlash,
              show ("h6" : String).data = ['h', '6'] from rfl])
        (forestOfHeading "h6" cs (by decide))
  | para cs hcontent =>
    exact rpGenBlock ['p'] "p" (makeParagraphNode cs) (renderInlineList cs) (forestOfInlineList cs) k
      (by decide) (by decide) (by decide) (by decide) (rpContent hcontent)
      (by rw [renderParaEval]
          simp [String.data_append, dataPO, dataPC])
      (forestOfPara cs)
  | quote cs hcontent =>
    exact rpGenBlock ['b', 'l', 'o', 'c', 'k', 'q', 'u', 'o', 't', 'e'] "blockquote"
      (makeQuoteNode cs)
      (renderInlineList cs) (forestOfInlineList cs) k
      (by decide) (by decide) (by decide) (by decide) (rpContent hcontent)
      (by rw [renderQuoteEval]
          simp [String.data_append, dataBqO, dataBqC])
      (forestOfQuote cs)
  | ulist items hne hitems =>
    exact rpGenBlock ['u', 'l'] "ul" (makeListNode "bullet" "ul" items) (renderBlockList items) (forestOfBlockList items) k
      (by decide) (by decide) (by decide) (by decide) (rpItems hitems)
      (by rw [renderUlEval]
          simp [String.data_append, dataUlO, dataUlC])
      (forestOfUl items)
  | olist items hne hitems =>
    exact rpGenBlock ['o', 'l'] "ol" (makeListNode "number" "ol" items) (renderBlockList items) (forestOfBlockList items) k
      (by decide) (by decide) (by decide) (by decide) (rpItems hitems)
      (by rw [renderOlEval]
          simp [String.data_append, dataOlO, dataOlC])
      (forestOfOl items)

/-- Parsing the newline-joined rendering of a canonical block sequence
yields its document parse forest and consumes the whole input. -/
theorem rpDoc {cs : List DNode} (h : TCBlocks cs) :
    parseNodes ((String.intercalate "\n" (cs.map renderBlockNode)).data)
      = (forestOfDoc cs, (String.intercalate "\n" (cs.map renderBlockNode)).data, []) := by
  induction h with
  | nil =>
    simp [String.intercalate, forestOfDoc, parseNodes_nil]
  | cons b bs hb hbs ih =>
    cases bs with
    | nil =>
      rw [List.map_cons, List.map_nil, intercalate_single]
      have h1 := rpBlock hb []
      rw [List.append_nil, parseNodes_nil] at h1
      simp [h1, forestOfDoc]
    | cons b2 bs2 =>
      have hb2 : TCBlock b2 := by
        cases hbs with
        | cons _ _ h2 _ => exact h2
      obtain ⟨s, hs⟩ := renderBlockStartsLt hb2
      simp only [List.map_cons] at ih ⊢
      have hstart : ∃ r, (String.intercalate "\n"
          (renderBlockNode b2 :: List.map renderBlockNode bs2)).data = '<' :: r := by
        cases bs2 with
        | nil =>
          rw [List.map_nil, intercalate_single]
          exact ⟨s, hs⟩
        | cons b3 bs3 =>
          rw [List.map_cons, intercalate_cons2]
          refine ⟨s ++ ('\n' :: (String.intercalate "\n"
            (renderBlockNode b3 :: List.map renderBlockNode bs3)).data), ?_⟩
          simp [String.data_append, hs, show ("\n" : String).data = ['\n'] from rfl]
      obtain ⟨r, hr⟩ := hstart
      rw [intercalate_cons2]
      have hshape : (renderBlockNode b ++ "\n" ++ String.intercalate "\n"
            (renderBlockNode b2 :: List.map renderBlockNode bs2)).data
          = (renderBlockNode b).data ++ '\n' :: (String.intercalate "\n"
              (renderBlockNode b2 :: List.map renderBlockNode bs2)).data := by
        simp [String.data_append, show ("\n" : String).data = ['\n'] from rfl]
      rw [hshape, hr]
      have ih2 := ih
      rw [hr] at ih2
      have htext := parseNodes_text ['\n'] r (by decide) (by decide)
      simp only [List.cons_append, List.nil_append] at htext
      have hblock := rpBlock hb ('\n' :: '<' :: r)
      rw [htext, ih2] at hblock
      rw [hblock]
      simp [forestOfDoc, show String.mk ['\n'] = "\n" from rfl]

/-- convertInlineList distributes over list append. -/
theorem convertInlineList_append (xs ys : List HNode) (f : Nat) :
    convertInlineList (xs ++ ys) f
      = convertInlineList xs f ++ convertInlineList ys f := by
  induction xs with
  | nil => simp [convertInlineList]
  | cons x rest ih =>
    cases x with
    | text raw => simp [convertInlineList, ih, List.append_assoc]
    | elem tag attrs outer children => simp [convertInlineList, ih, List.append_assoc]

mutual

/-- Re-encoding the parse forest of a canonical inline node restores the
node. -/
theorem encInline {allow : Bool} {n : DNode} (h : TCInline allow n) :
    convertInlineList (forestOfInline n) 0 = [n] := by
  cases h with
  | text allow t f hsafe hne hf =>
    have ht : (t == "") = false := beq_eq_false_iff_ne.mpr hne
    interval_cases f
    · simp +decide [forestOfInline, makeTextNode, orEmpty, escapeHtml_safe t hsafe,
        convertInlineList, ht]
    · simp +decide [forestOfInline, makeTextNode, orEmpty, escapeHtml_safe t hsafe,
        convertInlineList, ht, FORMAT_BOLD, FORMAT_ITALIC]
    · simp +decide [forestOfInline, makeTextNode, orEmpty, escapeHtml_safe t hsafe,
        convertInlineList, ht, FORMAT_BOLD, FORMAT_ITALIC]
    · simp +decide [forestOfInline, makeTextNode, orEmpty, escapeHtml_safe t hsafe,
        convertInlineList, ht, FORMAT_BOLD, FORMAT_ITALIC]
  | br allow =>
    simp +decide [forestOfInline, makeLinebreakNode, convertInlineList]
  | link u cs hu hne hseq =>
    have hcs := encSeq hseq
    have hlen : 0 < cs.length := List.length_pos.mpr hne
    simp +decide [forestOfInline, makeLinkNode, orEmpty, escapeHtml_safe u hu,
      convertInlineList, getAttr, hcs, hlen]

/-- Re-encoding the parse forest of a canonical inline sequence restores
the sequence. -/
theorem encSeq {allow : Bool} {cs : List DNode} (h : TCSeq allow cs) :
    convertInlineList (forestOfInlineList cs) 0 = cs := by
  cases h with
  | nil allow => simp [forestOfInlineList, convertInlineList]
  | cons allow n ns hn hsep hns =>
    rw [forestOfInlineList, convertInlineList_append, encInline hn, encSeq hns]
    simp

end

/-- Re-encoding canonical paragraph-like content (with the encoder's
empty-content padding) restores the content. -/
theorem encContent {cs : List DNode} (h : TCContent cs) :
    (if (convertInlineList (forestOfInlineList cs) 0).isEmpty
     then [makeTextNode "" 0] else convertInlineList (forestOfInlineList cs) 0) = cs := by
  rcases h with rfl | ⟨hne, hseq⟩
  · have h1 : forestOfInlineList [makeTextNode "" 0] = [] := by
      simp +decide [forestOfInlineList, forestOfInline, makeTextNode, orEmpty,
        escapeHtml_safe "" (by decide)]
    simp [h1, convertInlineList]
  · rw [encSeq hseq]
    cases cs with
    | nil => exact absurd rfl hne
    | cons a l => simp [List.isEmpty]

/-- Re-encoding the parse forest of canonical list items restores the
items with their consecutive values. -/
theorem encItems {k : Nat} {items : List DNode} (h : TCItems k items) :
    convertListItems (forestOfBlockList items) k = items := by
  induction h with
  | nil k => simp [forestOfBlockList, convertListItems]
  | item k t rest hsafe hrest ih =>
    rw [forestOfBlockList]
    have hf : forestOfBlock (makeListItemNode [makeTextNode t 0] k)
        = HNode.elem "li" [] (renderBlockNode (makeListItemNode [makeTextNode t 0] k))
            (forestOfInlineList [makeTextNode t 0]) := by
      simp +decide [forestOfBlock, makeListItemNode]
    rw [hf]
    by_cases ht : t = ""
    · subst ht
      have h1 : forestOfInlineList [makeTextNode "" 0] = [] := by
        simp +decide [forestOfInlineList, forestOfInline, makeTextNode, orEmpty,
          escapeHtml_safe "" (by decide)]
      simp +decide [h1, convertListItems, liPartition, ih]
    · have ht2 : (t == "") = false := beq_eq_false_iff_ne.mpr ht
      have h1 : forestOfInlineList [makeTextNode t 0] = [HNode.text t] := by
        simp +decide [forestOfInlineList, forestOfInline, makeTextNode, orEmpty,
          escapeHtml_safe t hsafe, ht2]
      simp +decide [h1, convertListItems, liPartition, ht2, ih]

/-- Re-encoding the parse tree of a canonical block restores the block. -/
theorem encBlock {b : DNode} (h : TCBlock b) :
    convertBlockElement (forestOfBlock b) = [b] := by
  cases h with
  | heading tag cs htag hcontent =>
    have hc := encContent hcontent
    rcases (by simpa using htag : tag = "h1" ∨ tag = "h2" ∨ tag = "h3" ∨ tag = "h4"
        ∨ tag = "h5" ∨ tag = "h6") with rfl | rfl | rfl | rfl | rfl | rfl
    · rw [forestOfHeading "h1" cs (by decide)]
      simp +decide [convertBlockElement, hc, show toLowerStr "h1" = "h1" from rfl]
    · rw [forestOfHeading "h2" cs (by decide)]
      simp +decide [convertBlockElement, hc, show toLowerStr "h2" = "h2" from rfl]
    · rw [forestOfHeading "h3" cs (by decide)]
      simp +decide [convertBlockElement, hc, show toLowerStr "h3" = "h3" from rfl]
    · rw [forestOfHeading "h4" cs (by decide)]
      simp +decide [convertBlockElement, hc, show toLowerStr "h4" = "h4" from rfl]
    · rw [forestOfHeading "h5" cs (by decide)]
      simp +decide [convertBlockElement, hc, show toLowerStr "h5" = "h5" from rfl]
    · rw [forestOfHeading "h6" cs (by decide)]
      simp +decide [convertBlockElement, hc, show toLowerStr "h6" = "h6" from rfl]
  | para cs hcontent =>
    have hc := encContent hcontent
    rw [forestOfPara]
    simp +decide [convertBlockElement, hc]
  | quote cs hcontent =>
    have hc := encContent hcontent
    rw [forestOfQuote]
    simp +decide [convertBlockElement, hc]
  | ulist items hne hitems =>
    have hi := encItems hitems
    have hlen : items.isEmpty = false := by
      cases items with
      | nil => exact absurd rfl hne
      | cons a l => simp [List.isEmpty]
    rw [forestOfUl]
    simp +decide [convertBlockElement, hi, hlen, show toLowerStr "ul" = "ul" from rfl]
  | olist items hne hitems =>
    have hi := encItems hitems
    have hlen : items.isEmpty = false := by
      cases items with
      | nil => exact absurd rfl hne
      | cons a l => simp [List.isEmpty]
    rw [forestOfOl]
    simp +decide [convertBlockElement, hi, hlen, show toLowerStr "ol" = "ol" from rfl]

/-- The parse tree of a canonical block is an element carrying a
recognised block tag. -/
theorem encBlockTag {b : DNode} (h : TCBlock b) :
    ∃ tg attrs raw kids, forestOfBlock b = HNode.elem tg attrs raw kids
      ∧ blockTags.contains (toLowerStr tg) = true := by
  cases h with
  | heading tag cs htag hcontent =>
    rcases (by simpa using htag : tag = "h1" ∨ tag = "h2" ∨ tag = "h3" ∨ tag = "h4"
        ∨ tag = "h5" ∨ tag = "h6") with rfl | rfl | rfl | rfl | rfl | rfl
    · exact ⟨_, _, _, _, forestOfHeading "h1" cs (by decide), by decide⟩
    · exact ⟨_, _, _, _, forestOfHeading "h2" cs (by decide), by decide⟩
    · exact ⟨_, _, _, _, forestOfHeading "h3" cs (by decide), by decide⟩
    · exact ⟨_, _, _, _, forestOfHeading "h4" cs (by decide), by decide⟩
    · exact ⟨_, _, _, _, forestOfHeading "h5" cs (by decide), by decide⟩
    · exact ⟨_, _, _, _, forestOfHeading "h6" cs (by decide), by decide⟩
  | para cs hcontent => exact ⟨_, _, _, _, forestOfPara cs, by decide⟩
  | quote cs hcontent => exact ⟨_, _, _, _, forestOfQuote cs, by decide⟩
  | ulist items hne hitems => exact ⟨_, _, _, _, forestOfUl items, by decide⟩
  | olist items hne hitems => exact ⟨_, _, _, _, forestOfOl items, by decide⟩

/-- Re-encoding the document parse forest of a canonical block sequence
restores the sequence. -/
theorem encDoc {cs : List DNode} (h : TCBlocks cs) :
    convertChildBlocksGo (forestOfDoc cs) [] = cs := by
  induction h with
  | nil => simp [forestOfDoc, convertChildBlocksGo]
  | cons b bs hb hbs ih =>
    obtain ⟨tg, attrs, raw, kids, hfb, htag⟩ := encBlockTag hb
    have hcb : convertBlockElement (HNode.elem tg attrs raw kids) = [b] := by
      rw [← hfb]
      exact encBlock hb
    have hmem : toLowerStr tg ∈ blockTags := by simpa using htag
    cases bs with
    | nil =>
      simp [forestOfDoc, hfb, convertChildBlocksGo, htag, hcb, hmem]
    | cons b2 bs2 =>
      simp +decide [forestOfDoc, hfb, convertChildBlocksGo, htag, hcb, hmem, ih]

mutual

/-- tcInlineB is sound for TCInline. -/
theorem tcInlineB_sound {allow : Bool} {n : DNode} (h : tcInlineB allow n = true) :
    TCInline allow n := by
  rw [tcInlineB.eq_def] at h
  split at h
  · rename_i t f
    obtain ⟨⟨h1, h2⟩, h3⟩ := by simpa [Bool.and_eq_true] using h
    exact TCInline.text allow t f h1 (by simpa using h2) (by simpa using h3)
  · exact TCInline.br allow
  · rename_i cs u
    obtain ⟨⟨⟨ha, hu⟩, hne⟩, hseq⟩ := by simpa [Bool.and_eq_true] using h
    subst ha
    refine TCInline.link u cs hu ?_ (tcSeqB_sound hseq)
    intro hc
    subst hc
    simp at hne
  · exact absurd h (by simp)

/-- tcSeqB is sound for TCSeq. -/
theorem tcSeqB_sound {allow : Bool} {cs : List DNode} (h : tcSeqB allow cs = true) :
    TCSeq allow cs := by
  cases cs with
  | nil => exact TCSeq.nil allow
  | cons n ns =>
    rw [tcSeqB, Bool.and_eq_true, Bool.and_eq_true] at h
    obtain ⟨⟨h1, h2⟩, h3⟩ := h
    exact TCSeq.cons allow n ns (tcInlineB_sound h1)
      (by rwa [Bool.not_eq_true'] at h2) (tcSeqB_sound h3)

end

/-- isPadText is sound. -/
theorem isPadText_sound {n : DNode} (h : isPadText n = true) : n = makeTextNode "" 0 := by
  rw [isPadText.eq_def] at h
  split at h
  · rfl
  · exact absurd h (by simp)

/-- isPadList is sound. -/
theorem isPadList_sound {cs : List DNode} (h : isPadList cs = true) :
    cs = [makeTextNode "" 0] := by
  rw [isPadList.eq_def] at h
  split at h
  · rw [isPadText_sound h]
  · exact absurd h (by simp)

/-- tcContentB is sound for TCContent. -/
theorem tcContentB_sound {cs : List DNode} (h : tcContentB cs = true) : TCContent cs := by
  rw [tcContentB, Bool.or_eq_true] at h
  rcases h with h | h
  · exact Or.inl (isPadList_sound h)
  · obtain ⟨h1, h2⟩ := by simpa [Bool.and_eq_true] using h
    refine Or.inr ⟨?_, tcSeqB_sound h2⟩
    intro hc
    subst hc
    simp at h1

/-- tcItemsB is sound for TCItems. -/
theorem tcItemsB_sound {k : Nat} {items : List DNode} (h : tcItemsB k items = true) :
    TCItems k items := by
  induction items generalizing k with
  | nil => exact TCItems.nil k
  | cons n rest ih =>
    rw [tcItemsB.eq_def] at h
    split at h
    · exfalso
      rename_i heq
      exact (List.cons_ne_nil n rest) heq
    · rename_i t v rest2 heq
      injection heq with h4 h5
      subst h4
      subst h5
      rw [Bool.and_eq_true, Bool.and_eq_true] at h
      obtain ⟨⟨h1, h2⟩, h3⟩ := h
      have hv : v = k := by simpa using h2
      subst hv
      exact TCItems.item v t rest h1 (ih h3)
    · exact absurd h (by simp)

/-- tcBlockB is sound for TCBlock. -/
theorem tcBlockB_sound {b : DNode} (h : tcBlockB b = true) : TCBlock b := by
  rw [tcBlockB.eq_def] at h
  split at h
  · rename_i tg cs
    obtain ⟨h1, h2⟩ := by simpa [Bool.and_eq_true] using h
    refine TCBlock.heading tg cs ?_ (tcContentB_sound h2)
    simp only [List.mem_cons, List.not_mem_nil, or_false]
    tauto
  · rename_i cs
    exact TCBlock.para cs (tcContentB_sound h)
  · rename_i cs
    exact TCBlock.quote cs (tcContentB_sound h)
  · rename_i items
    obtain ⟨h1, h2⟩ := by simpa [Bool.and_eq_true] using h
    refine TCBlock.ulist items ?_ (tcItemsB_sound h2)
    intro hc
    subst hc
    simp at h1
  · rename_i items
    obtain ⟨h1, h2⟩ := by simpa [Bool.and_eq_true] using h
    refine TCBlock.olist items ?_ (tcItemsB_sound h2)
    intro hc
    subst hc
    simp at h1
  · exact absurd h (by simp)

/-- tcBlocksB is sound for TCBlocks. -/
theorem tcBlocksB_sound {cs : List DNode} (h : tcBlocksB cs = true) : TCBlocks cs := by
  induction cs with
  | nil => exact TCBlocks.nil
  | cons b bs ih =>
    rw [tcBlocksB] at h
    obtain ⟨h1, h2⟩ := by simpa [Bool.and_eq_true] using h
    exact TCBlocks.cons b bs (tcBlockB_sound h1) (ih h2)

/-- tcDocB is sound for TCDoc. -/
theorem tcDocB_sound {cs : List DNode} (h : tcDocB cs = true) : TCDoc cs := by
  rw [tcDocB] at h
  obtain ⟨h1, h2⟩ := by simpa [Bool.and_eq_true] using h
  refine ⟨?_, tcBlocksB_sound h2⟩
  intro hc
  subst hc
  simp at h1

/-- The encoder always produces a document with a root carrying children,
and docChildren reads them back. -/
theorem htmlToLexical_eq (html : String) :
    htmlToLexical html
      = DDoc.mk (some (DRoot.mk (some (docChildren (htmlToLexical html))))) := rfl

/-- The decoder on a well-formed document joins the rendered blocks with a
newline. -/
theorem lexicalToHtml_mk (cs : List DNode) :
    lexicalToHtml (DDoc.mk (some (DRoot.mk (some cs))))
      = String.intercalate "\n" (cs.map renderBlockNode) := rfl

/-- Re-encoding the decoding of a canonical document restores the document
node for node. -/
theorem roundTrip_canonical (cs : List DNode) (hne : cs ≠ []) (hblocks : TCBlocks cs) :
    htmlToLexical (String.intercalate "\n" (cs.map renderBlockNode))
      = DDoc.mk (some (DRoot.mk (some cs))) := by
  have hparse : parseFragment (String.intercalate "\n" (cs.map renderBlockNode))
      = forestOfDoc cs := by
    rw [parseFragment, rpDoc hblocks]
  have hlen : cs.isEmpty = false := by
    cases cs with
    | nil => exact absurd rfl hne
    | cons a l => simp [List.isEmpty]
  simp [htmlToLexical, convertChildBlocksList, hparse, encDoc hblocks, hlen]

/-- Claim C3 (amended): decode-encode-decode is not the identity on all
fragments — escaping drift on reserved characters refutes the universal
statement (see the counterexample) — but it is drift-free on every input
whose encoding is a canonical document: nonempty reserved-free text runs
with format bits within bold|italic and no two adjacent bare runs,
linebreaks, rel-free links with reserved-free targets, headings h1-h6,
paragraphs and quotes (possibly padded empty), and flat lists of plain
consecutively-numbered items. For such inputs re-encoding the decoded
output and decoding again reproduces the decoded output byte for byte. -/
theorem c3_idempotent_amended (html : String)
    (h : tcDocB (docChildren (htmlToLexical html)) = true) :
    lexicalToHtml (htmlToLexical (lexicalToHtml (htmlToLexical html)))
      = lexicalToHtml (htmlToLexical html) := by
  obtain ⟨hne, hblocks⟩ := tcDocB_sound h
  have h1 : lexicalToHtml (htmlToLexical html)
      = String.intercalate "\n"
          ((docChildren (htmlToLexical html)).map renderBlockNode) := rfl
  rw [h1, roundTrip_canonical _ hne hblocks, lexicalToHtml_mk]

/-- Evaluation of the modelled parser on the idempotence witness input. -/
theorem parseHiEval : parseFragment "<p>Hi</p>"
    = [HNode.elem "p" [] "<p>Hi</p>" [HNode.text "Hi"]] := by
  simp +decide [parseFragment, parseNodes, parseAttrs, takeWhileName, takeUntilChar,
    consumeCloseTag, isNameChar, voidTags, toLowerStr]

/-- Evaluation of the encoder on the idempotence witness input. -/
theorem htmlHiEval : htmlToLexical "<p>Hi</p>"
    = DDoc.mk (some (DRoot.mk (some [makeParagraphNode [makeTextNode "Hi" 0]]))) := by
  simp +decide [htmlToLexical, parseHiEval, convertChildBlocksList, convertChildBlocksGo,
    convertBlockElement, convertInlineList, blockTags, toLowerStr, trimStr]

/-- Claim C3 witness: the paragraph input satisfies the canonical-document
hypothesis and the amended idempotence holds on it. -/
theorem c3_witness :
    tcDocB (docChildren (htmlToLexical "<p>Hi</p>")) = true ∧
    lexicalToHtml (htmlToLexical (lexicalToHtml (htmlToLexical "<p>Hi</p>")))
      = lexicalToHtml (htmlToLexical "<p>Hi</p>") :=
  ⟨by rw [htmlHiEval]; rfl,
   c3_idempotent_amended "<p>Hi</p>" (by rw [htmlHiEval]; rfl)⟩

/-- semViewList distributes over forest append. -/
theorem semViewList_append (xs ys : List HNode) :
    semViewList (xs ++ ys) = semViewList xs ++ semViewList ys := by
  induction xs with
  | nil => simp [semViewList]
  | cons x rest ih =>
    rw [List.cons_append, semViewList, semViewList, ih, String.append_assoc]

mutual

/-- Encoding one supported inline parse node yields one canonical Lexical
node whose rendering parses back to a forest with the same semantic view;
the node is a bare text run exactly when the source node was. -/
theorem fcEncInline {allow : Bool} {n : HNode} (h : FCInline allow n) :
    ∃ d : DNode, convertInlineList [n] 0 = [d] ∧ TCInline allow d
      ∧ semViewList (forestOfInline d) = semView n
      ∧ isPlain0 d = isTextNode n := by
  cases h with
  | text allow raw hsafe hne =>
    have hb := beq_eq_false_iff_ne.mpr hne
    refine ⟨makeTextNode raw 0, ?_, TCInline.text allow raw 0 hsafe hne (by decide), ?_, ?_⟩
    · simp [convertInlineList, hb]
    · simp +decide [forestOfInline, makeTextNode, orEmpty, escapeHtml_safe raw hsafe,
        semViewList, semView, hb]
    · simp +decide [isPlain0, makeTextNode, DNode.typ, DNode.formatVal, isTextNode]
  | strong allow tag outer t htag hsafe hne =>
    have hb := beq_eq_false_iff_ne.mpr hne
    rcases htag with rfl | rfl <;>
    · refine ⟨makeTextNode t 1, ?_, TCInline.text allow t 1 hsafe hne (by decide), ?_, ?_⟩
      · simp +decide [convertInlineList, toLowerStr, hb, FORMAT_BOLD]
      · simp +decide [forestOfInline, makeTextNode, orEmpty, escapeHtml_safe t hsafe,
          semViewList, semView, semTags, toLowerStr, hb, FORMAT_BOLD, FORMAT_ITALIC]
      · simp +decide [isPlain0, makeTextNode, DNode.typ, DNode.formatVal, isTextNode]
  | em allow tag outer t htag hsafe hne =>
    have hb := beq_eq_false_iff_ne.mpr hne
    rcases htag with rfl | rfl <;>
    · refine ⟨makeTextNode t 2, ?_, TCInline.text allow t 2 hsafe hne (by decide), ?_, ?_⟩
      · simp +decide [convertInlineList, toLowerStr, hb, FORMAT_ITALIC]
      · simp +decide [forestOfInline, makeTextNode, orEmpty, escapeHtml_safe t hsafe,
          semViewList, semView, semTags, toLowerStr, hb, FORMAT_BOLD, FORMAT_ITALIC]
      · simp +decide [isPlain0, makeTextNode, DNode.typ, DNode.formatVal, isTextNode]
  | emStrong allow tagE tagS outerE outerS t htagE htagS hsafe hne =>
    have hb := beq_eq_false_iff_ne.mpr hne
    rcases htagE with rfl | rfl <;> rcases htagS with rfl | rfl <;>
    · refine ⟨makeTextNode t 3, ?_, TCInline.text allow t 3 hsafe hne (by decide), ?_, ?_⟩
      · simp +decide [convertInlineList, toLowerStr, hb, FORMAT_BOLD, FORMAT_ITALIC]
      · simp +decide [forestOfInline, makeTextNode, orEmpty, escapeHtml_safe t hsafe,
          semViewList, semView, semTags, toLowerStr, hb, FORMAT_BOLD, FORMAT_ITALIC]
      · simp +decide [isPlain0, makeTextNode, DNode.typ, DNode.formatVal, isTextNode]
  | br allow outer =>
    refine ⟨makeLinebreakNode, ?_, TCInline.br allow, ?_, ?_⟩
    · simp +decide [convertInlineList, toLowerStr]
    · simp +decide [forestOfInline, makeLinebreakNode, semViewList, semView, semTags,
        toLowerStr]
    · simp +decide [isPlain0, makeLinebreakNode, DNode.typ, DNode.formatVal, isTextNode]
  | link u outer cs hu hne hseq =>
    obtain ⟨htc, hsv, hhead, hlen⟩ := fcEncSeq hseq
    have hlen2 : 0 < (convertInlineList cs 0).length := by
      rw [hlen]
      exact List.length_pos.mpr hne
    refine ⟨makeLinkNode u (convertInlineList cs 0) none, ?_, ?_, ?_, ?_⟩
    · simp +decide [convertInlineList, toLowerStr, getAttr, orEmpty, hlen2]
    · refine TCInline.link u (convertInlineList cs 0) hu ?_ htc
      intro hc
      apply hne
      rw [hc] at hlen
      exact List.eq_nil_of_length_eq_zero hlen.symm
    · simp +decide [forestOfInline, makeLinkNode, orEmpty, escapeHtml_safe u hu,
        semViewList, semView, semTags, toLowerStr, hsv]
    · simp +decide [isPlain0, makeLinkNode, DNode.typ, DNode.formatVal, isTextNode]

/-- Encoding a supported inline sequence yields a canonical sequence of the
same length and semantic view, bare-headed exactly when the source is. -/
theorem fcEncSeq {allow : Bool} {fs : List HNode} (h : FCSeq allow fs) :
    TCSeq allow (convertInlineList fs 0)
      ∧ semViewList (forestOfInlineList (convertInlineList fs 0)) = semViewList fs
      ∧ headPlain0 (convertInlineList fs 0) = headIsText fs
      ∧ (convertInlineList fs 0).length = fs.length := by
  cases h with
  | nil allow =>
    have h0 : convertInlineList ([] : List HNode) 0 = [] := by simp [convertInlineList]
    refine ⟨?_, ?_, ?_, ?_⟩
    · rw [h0]
      exact TCSeq.nil allow
    · simp [h0, forestOfInlineList, semViewList]
    · simp [h0, headPlain0, headIsText]
    · simp [h0]
  | cons allow n ns hn hsep hns =>
    obtain ⟨d, hcd, htcd, hsvd, hpd⟩ := fcEncInline hn
    obtain ⟨htc, hsv, hhead, hlen⟩ := fcEncSeq hns
    have hsplit : convertInlineList (n :: ns) 0 = d :: convertInlineList ns 0 := by
      rw [← List.singleton_append, convertInlineList_append, hcd]
      simp
    refine ⟨?_, ?_, ?_, ?_⟩
    · rw [hsplit]
      refine TCSeq.cons allow d _ htcd ?_ htc
      rw [hpd, hhead]
      exact hsep
    · rw [hsplit]
      simp only [forestOfInlineList, semViewList]
      rw [semViewList_append, hsvd, hsv]
    · rw [hsplit]
      simp [headPlain0, headIsText, hpd]
    · rw [hsplit]
      simp [hlen]

end

/-- Encoding supported paragraph-like content (with the encoder's padding)
yields canonical content with the same semantic view. -/
theorem fcEncContent {fs : List HNode} (h : FCSeq true fs) :
    TCContent (if (convertInlineList fs 0).isEmpty then [makeTextNode "" 0]
      else convertInlineList fs 0)
      ∧ semViewList (forestOfInlineList
          (if (convertInlineList fs 0).isEmpty then [makeTextNode "" 0]
            else convertInlineList fs 0)) = semViewList fs := by
  obtain ⟨htc, hsv, hhead, hlen⟩ := fcEncSeq h
  cases fs with
  | nil =>
    have h0 : convertInlineList ([] : List HNode) 0 = [] := by simp [convertInlineList]
    have h1 : forestOfInlineList [makeTextNode "" 0] = [] := by
      simp +decide [forestOfInlineList, forestOfInline, makeTextNode, orEmpty,
        escapeHtml_safe "" (by decide)]
    rw [h0]
    exact ⟨Or.inl rfl, by simp [h1, semViewList]⟩
  | cons f fs2 =>
    have hne2 : convertInlineList (f :: fs2) 0 ≠ [] := by
      intro hc
      rw [hc] at hlen
      simp at hlen
    have hE : (convertInlineList (f :: fs2) 0).isEmpty = false := by
      cases hcv : convertInlineList (f :: fs2) 0 with
      | nil => exact absurd hcv hne2
      | cons a l => simp [List.isEmpty]
    rw [hE]
    simp only [Bool.false_eq_true, if_false]
    exact ⟨Or.inr ⟨hne2, htc⟩, hsv⟩

/-- Encoding supported list children yields canonical consecutive items
with the same semantic view and count. -/
theorem fcEncItems {lis : List HNode} (h : FCItems lis) (k : Nat) :
    TCItems k (convertListItems lis k)
      ∧ semViewList (forestOfBlockList (convertListItems lis k)) = semViewList lis
      ∧ (convertListItems lis k).length = lis.length := by
  induction h generalizing k with
  | nil =>
    have h0 : convertListItems [] k = [] := by simp [convertListItems]
    rw [h0]
    exact ⟨TCItems.nil k, by simp [forestOfBlockList, semViewList], by simp⟩
  | itemText outer t rest hsafe hne hrest ih =>
    obtain ⟨h1, h2, h3⟩ := ih (k + 1)
    have hb := beq_eq_false_iff_ne.mpr hne
    have hstep : convertListItems (HNode.elem "li" [] outer [HNode.text t] :: rest) k
        = makeListItemNode [makeTextNode t 0] k :: convertListItems rest (k + 1) := by
      simp +decide [convertListItems, toLowerStr, liPartition, hb]
    have hfb : forestOfBlock (makeListItemNode [makeTextNode t 0] k)
        = HNode.elem "li" [] (renderBlockNode (makeListItemNode [makeTextNode t 0] k))
            (forestOfInlineList [makeTextNode t 0]) := by
      simp +decide [forestOfBlock, makeListItemNode]
    have hfi : forestOfInlineList [makeTextNode t 0] = [HNode.text t] := by
      simp +decide [forestOfInlineList, forestOfInline, makeTextNode, orEmpty,
        escapeHtml_safe t hsafe, hb]
    refine ⟨?_, ?_, ?_⟩
    · rw [hstep]
      exact TCItems.item k t _ hsafe h1
    · rw [hstep]
      simp +decide [forestOfBlockList, hfb, hfi, semViewList, semView, semTags,
        toLowerStr, h2]
    · rw [hstep]
      simp [h3]
  | itemEmpty outer rest hrest ih =>
    obtain ⟨h1, h2, h3⟩ := ih (k + 1)
    have hstep : convertListItems (HNode.elem "li" [] outer [] :: rest) k
        = makeListItemNode [makeTextNode "" 0] k :: convertListItems rest (k + 1) := by
      simp +decide [convertListItems, toLowerStr, liPartition]
    have hfb : forestOfBlock (makeListItemNode [makeTextNode "" 0] k)
        = HNode.elem "li" [] (renderBlockNode (makeListItemNode [makeTextNode "" 0] k))
            (forestOfInlineList [makeTextNode "" 0]) := by
      simp +decide [forestOfBlock, makeListItemNode]
    have hfi : forestOfInlineList [makeTextNode "" 0] = [] := by
      simp +decide [forestOfInlineList, forestOfInline, makeTextNode, orEmpty,
        escapeHtml_safe "" (by decide)]
    refine ⟨?_, ?_, ?_⟩
    · rw [hstep]
      exact TCItems.item k "" _ (by decide) h1
    · rw [hstep]
      simp +decide [forestOfBlockList, hfb, hfi, semViewList, semView, semTags,
        toLowerStr, h2]
    · rw [hstep]
      simp [h3]

/-- Encoding one supported block yields one canonical block whose rendered
parse tree has the same semantic view. -/
theorem fcEncBlock {blk : HNode} (h : FCBlock blk) :
    ∃ b : DNode, convertBlockElement blk = [b] ∧ TCBlock b
      ∧ semView (forestOfBlock b) = semView blk := by
  cases h with
  | heading tag outer cs htag hcs =>
    obtain ⟨htcc, hsvc⟩ := fcEncContent hcs
    have hfacts : toLowerStr tag = tag
        ∧ ((tag == "h1") || (tag == "h2") || (tag == "h3") || (tag == "h4")
            || (tag == "h5") || (tag == "h6")) = true
        ∧ (tag == "b") = false ∧ (tag == "i") = false ∧ (tag == "table") = false
        ∧ semTags.contains tag = true ∧ (tag == "") = false
        ∧ tag ∈ (["h1", "h2", "h3", "h4", "h5", "h6"] : List String) := by
      rcases (by simpa using htag : tag = "h1" ∨ tag = "h2" ∨ tag = "h3" ∨ tag = "h4"
          ∨ tag = "h5" ∨ tag = "h6") with rfl | rfl | rfl | rfl | rfl | rfl <;>
        refine ⟨rfl, by decide, by decide, by decide, by decide, by decide, by decide,
          by decide⟩
    obtain ⟨hlow, hcond, hb2, hi2, htab, hsem, htgne, hmem⟩ := hfacts
    have hstep : convertBlockElement (HNode.elem tag [] outer cs)
        = [makeHeadingNode tag (if (convertInlineList cs 0).isEmpty
            then [makeTextNode "" 0] else convertInlineList cs 0)] := by
      simp [convertBlockElement, hlow, hcond]
    refine ⟨_, hstep, TCBlock.heading tag _ hmem htcc, ?_⟩
    rw [forestOfHeading tag _ htgne]
    simp [semView, hlow, hb2, hi2, htab, hsem, hsvc]
  | para outer cs hcs =>
    obtain ⟨htcc, hsvc⟩ := fcEncContent hcs
    have hstep : convertBlockElement (HNode.elem "p" [] outer cs)
        = [makeParagraphNode (if (convertInlineList cs 0).isEmpty
            then [makeTextNode "" 0] else convertInlineList cs 0)] := by
      simp +decide [convertBlockElement, toLowerStr]
    refine ⟨_, hstep, TCBlock.para _ htcc, ?_⟩
    rw [forestOfPara]
    simp +decide [semView, semTags, toLowerStr, hsvc]
  | quote outer cs hcs =>
    obtain ⟨htcc, hsvc⟩ := fcEncContent hcs
    have hstep : convertBlockElement (HNode.elem "blockquote" [] outer cs)
        = [makeQuoteNode (if (convertInlineList cs 0).isEmpty
            then [makeTextNode "" 0] else convertInlineList cs 0)] := by
      simp +decide [convertBlockElement, toLowerStr]
    refine ⟨_, hstep, TCBlock.quote _ htcc, ?_⟩
    rw [forestOfQuote]
    simp +decide [semView, semTags, toLowerStr, hsvc]
  | ulist outer lis hne hitems =>
    obtain ⟨h1, h2, h3⟩ := fcEncItems hitems 1
    have hne2 : convertListItems lis 1 ≠ [] := by
      intro hc
      apply hne
      rw [hc] at h3
      exact List.eq_nil_of_length_eq_zero h3.symm
    have hE : (convertListItems lis 1).isEmpty = false := by
      cases hcv : convertListItems lis 1 with
      | nil => exact absurd hcv hne2
      | cons a l => simp [List.isEmpty]
    have hstep : convertBlockElement (HNode.elem "ul" [] outer lis)
        = [makeListNode "bullet" "ul" (convertListItems lis 1)] := by
      simp +decide [convertBlockElement, toLowerStr, hE]
    refine ⟨_, hstep, TCBlock.ulist _ hne2 h1, ?_⟩
    rw [forestOfUl]
    simp +decide [semView, semTags, toLowerStr, h2]
  | olist outer lis hne hitems =>
    obtain ⟨h1, h2, h3⟩ := fcEncItems hitems 1
    have hne2 : convertListItems lis 1 ≠ [] := by
      intro hc
      apply hne
      rw [hc] at h3
      exact List.eq_nil_of_length_eq_zero h3.symm
    have hE : (convertListItems lis 1).isEmpty = false := by
      cases hcv : convertListItems lis 1 with
      | nil => exact absurd hcv hne2
      | cons a l => simp [List.isEmpty]
    have hstep : convertBlockElement (HNode.elem "ol" [] outer lis)
        = [makeListNode "number" "ol" (convertListItems lis 1)] := by
      simp +decide [convertBlockElement, toLowerStr, hE]
    refine ⟨_, hstep, TCBlock.olist _ hne2 h1, ?_⟩
    rw [forestOfOl]
    simp +decide [semView, semTags, toLowerStr, h2]

/-- A supported block is an attribute-free element with a recognised block
tag. -/
theorem fcBlockShape {blk : HNode} (h : FCBlock blk) :
    ∃ tag outer kids, blk = HNode.elem tag [] outer kids
      ∧ blockTags.contains (toLowerStr tag) = true := by
  cases h with
  | heading tag outer cs htag hcs =>
    refine ⟨tag, outer, cs, rfl, ?_⟩
    rcases (by simpa using htag : tag = "h1" ∨ tag = "h2" ∨ tag = "h3" ∨ tag = "h4"
        ∨ tag = "h5" ∨ tag = "h6") with rfl | rfl | rfl | rfl | rfl | rfl <;> decide
  | para outer cs hcs => exact ⟨"p", outer, cs, rfl, by decide⟩
  | quote outer cs hcs => exact ⟨"blockquote", outer, cs, rfl, by decide⟩
  | ulist outer lis hne hitems => exact ⟨"ul", outer, lis, rfl, by decide⟩
  | olist outer lis hne hitems => exact ⟨"ol", outer, lis, rfl, by decide⟩

/-- semViewList over a document forest splits at the first block (the
newline separator views as empty text). -/
theorem semViewDoc_cons (b : DNode) (cs : List DNode) :
    semViewList (forestOfDoc (b :: cs))
      = semView (forestOfBlock b) ++ semViewList (forestOfDoc cs) := by
  cases cs with
  | nil => simp [forestOfDoc, semViewList, String.append_empty]
  | cons b2 cs2 =>
    simp +decide [forestOfDoc, semViewList, semView, normText, unescapeChars,
      collapseWsGo, trimList, isSpaceChar, String.append_assoc]

/-- Encoding a supported block sequence yields a canonical block sequence
of the same length whose rendered document forest has the same semantic
view. -/
theorem fcEncBlocks {fs : List HNode} (h : FCBlocks fs) :
    TCBlocks (convertChildBlocksGo fs [])
      ∧ semViewList (forestOfDoc (convertChildBlocksGo fs [])) = semViewList fs
      ∧ (convertChildBlocksGo fs []).length = fs.length := by
  induction h with
  | nil =>
    have h0 : convertChildBlocksGo [] [] = [] := by simp [convertChildBlocksGo, List.isEmpty]
    rw [h0]
    exact ⟨TCBlocks.nil, by simp [forestOfDoc, semViewList], by simp⟩
  | cons blk rest hb hrest ih =>
    obtain ⟨h1, h2, h3⟩ := ih
    obtain ⟨b, hcb, htcb, hsvb⟩ := fcEncBlock hb
    obtain ⟨tag, outer, kids, hshape, htag⟩ := fcBlockShape hb
    have hmem : toLowerStr tag ∈ blockTags := by simpa using htag
    have hstep : convertChildBlocksGo (blk :: rest) []
        = b :: convertChildBlocksGo rest [] := by
      rw [hshape]
      rw [hshape] at hcb
      simp [convertChildBlocksGo, hmem, hcb, List.isEmpty]
    refine ⟨?_, ?_, ?_⟩
    · rw [hstep]
      exact TCBlocks.cons b _ htcb h1
    · rw [hstep, semViewDoc_cons, hsvb, h2, semViewList]
    · rw [hstep]
      simp [h3]

/-- Claim C2 (amended): on fragments built exclusively from the supported
block tags h1-h6, p, blockquote, ul and ol (li items holding one plain
reserved-free text run or nothing) with flat formatting — strong/b, em/i
and em-around-strong runs each wrapping a single nonempty reserved-free
text run, brs, and links carrying exactly an href attribute with nonempty
supported children, with no two adjacent bare text runs, no stray text or
tables at block or list level, and no nested lists — decoding the encoding
preserves the semantic view: same text content (entity-decoded and
whitespace-normalised) and the same nesting of the supported tags. Outside
this class the statement fails: a nested list is flattened to a sibling of
its item, changing the nesting (see the counterexample). -/
theorem c2_roundtrip_amended (html : String) (h : FCDoc (parseFragment html)) :
    semViewFragment (lexicalToHtml (htmlToLexical html)) = semViewFragment html := by
  obtain ⟨hne, hblocks⟩ := h
  obtain ⟨htcb, hsv, hlen⟩ := fcEncBlocks hblocks
  have hcne : convertChildBlocksGo (parseFragment html) [] ≠ [] := by
    intro hc
    apply hne
    rw [hc] at hlen
    exact List.eq_nil_of_length_eq_zero hlen.symm
  have hE : (convertChildBlocksGo (parseFragment html) []).isEmpty = false := by
    cases hcv : convertChildBlocksGo (parseFragment html) [] with
    | nil => exact absurd hcv hcne
    | cons a l => simp [List.isEmpty]
  have hdoc : htmlToLexical html
      = DDoc.mk (some (DRoot.mk (some (convertChildBlocksGo (parseFragment html) [])))) := by
    simp [htmlToLexical, convertChildBlocksList, hE]
  rw [hdoc, lexicalToHtml_mk, semViewFragment, parseFragment, rpDoc htcb]
  exact hsv

/-- Claim C2 witness: the paragraph input lies in the supported class and
its round trip preserves the semantic view. -/
theorem c2_witness :
    FCDoc (parseFragment "<p>Hi</p>") ∧
    semViewFragment (lexicalToHtml (htmlToLexical "<p>Hi</p>"))
      = semViewFragment "<p>Hi</p>" := by
  have hfc : FCDoc (parseFragment "<p>Hi</p>") := by
    rw [parseHiEval]
    exact ⟨by simp, FCBlocks.cons _ _ (FCBlock.para _ _ (FCSeq.cons _ _ _
      (FCInline.text _ _ (by decide) (by decide)) (by decide) (FCSeq.nil _)))
      FCBlocks.nil⟩
  exact ⟨hfc, c2_roundtrip_amended "<p>Hi</p>" hfc⟩
